import Mathlib

/-!
# Verification of the operational-simstrat core against its specification

This file gives a shallow embedding of the core algorithms of the
repository (the dependency-aware task scheduler of
`src/functions/parallel.py`, the time-series gap detector, interpolator,
statistical rebasing and climatological fill of `src/functions/general.py`,
`src/functions/forcing.py` and `src/functions/inflow.py`, and the
run-period resolution of `src/model.py`) and proves or refutes the
specification's claims about them.

Conventions:
* timestamps (Python `datetime.timestamp()` seconds) are embedded as `Int`;
* simstrat times (days since the reference date) are embedded as `ℚ`;
* a missing value (`NaN`) in a series is `Option.none`;
* Python exceptions are embedded as `Except` errors;
* the statuses of scheduler tasks are the literal strings used by the code.
-/

namespace Simstrat

/-! ## Gap detector: `detect_gaps` in `src/functions/general.py` -/

/-- Consecutive pairs of a list, `l.zip l.tail`: the pairs whose differences
`np.diff` computes. -/
def adjPairs {α : Type} (l : List α) : List (α × α) := l.zip l.tail

/-- `detect_gaps(arr, start, end, max_allowable_gap=86400)` from
`src/functions/general.py`.  The code concatenates `[[start], arr, [end]]`,
converts to timestamps (embedded here directly as integers: seconds),
sorts, takes `np.diff`, and for every index where the difference strictly
exceeds `max_allowable_gap` returns the pair of bounding timestamps. -/
def detect_gaps (arr : List Int) (start stop : Int) (max_allowable_gap : Int) :
    List (Int × Int) :=
  let sorted_timestamps := (start :: (arr ++ [stop])).insertionSort (· ≤ ·)
  (adjPairs sorted_timestamps).filter (fun p => max_allowable_gap < p.2 - p.1)

/-- Modelled from the spec's words (§4.2), for comparison with `detect_gaps`:
"form the sorted union of {window_start} ∪ timestamps ∪ {window_end};
compute consecutive differences; any difference exceeding `tolerance`
yields a Gap spanning that pair of timestamps".  The union collapses
duplicates, hence the `dedup`. -/
def sorted_union_gaps (arr : List Int) (start stop tol : Int) : List (Int × Int) :=
  let u := ((start :: (arr ++ [stop])).insertionSort (· ≤ ·)).dedup
  (adjPairs u).filter (fun p => tol < p.2 - p.1)

theorem adjPairs_cons_cons {α : Type} (a b : α) (t : List α) :
    adjPairs (a :: b :: t) = (a, b) :: adjPairs (b :: t) := rfl

theorem sorted_dedup_head : ∀ (t : List Int) (b : Int),
    (b :: t).Sorted (· ≤ ·) → ∃ t2, (b :: t).dedup = b :: t2 := by
  intro t
  induction t with
  | nil => intro b _; exact ⟨[], by simp⟩
  | cons c t2 ih =>
    intro b hs
    by_cases hmem : b ∈ c :: t2
    · have hbc : b = c := by
        have h1 : b ≤ c := (List.sorted_cons.mp hs).1 c (by simp)
        have h2 : c ≤ b := by
          rcases List.mem_cons.mp hmem with h | h
          · exact le_of_eq h.symm
          · exact (List.sorted_cons.mp (List.sorted_cons.mp hs).2).1 b h
        exact le_antisymm h1 h2
      rw [List.dedup_cons_of_mem hmem, hbc]
      exact ih c (List.sorted_cons.mp hs).2
    · rw [List.dedup_cons_of_not_mem hmem]
      exact ⟨(c :: t2).dedup, rfl⟩

theorem filter_adjPairs_dedup (tol : Int) (htol : 0 ≤ tol) :
    ∀ l : List Int, l.Sorted (· ≤ ·) →
      (adjPairs l).filter (fun p => tol < p.2 - p.1) =
        (adjPairs l.dedup).filter (fun p => tol < p.2 - p.1) := by
  intro l
  induction l with
  | nil => intro _; rfl
  | cons a t ih =>
    intro hs
    have hst : t.Sorted (· ≤ ·) := (List.sorted_cons.mp hs).2
    match t, ih, hst with
    | [], _, _ => simp [adjPairs]
    | b :: t2, ih, hst =>
      have hab : a ≤ b := (List.sorted_cons.mp hs).1 b (by simp)
      by_cases hmem : a ∈ b :: t2
      · have hba : a = b := by
          have h2 : b ≤ a := by
            rcases List.mem_cons.mp hmem with h | h
            · exact le_of_eq h.symm
            · exact (List.sorted_cons.mp hst).1 a h
          exact le_antisymm hab h2
        rw [List.dedup_cons_of_mem hmem, adjPairs_cons_cons, List.filter_cons]
        have hno : ¬ (tol < b - a) := by omega
        simp only [hno, decide_false_eq_false, if_neg, decide_eq_true_eq,
          not_false_eq_true]
        exact ih hst
      · rw [List.dedup_cons_of_not_mem hmem]
        obtain ⟨t3, ht3⟩ := sorted_dedup_head t2 b hst
        rw [ht3, adjPairs_cons_cons, adjPairs_cons_cons, List.filter_cons,
          List.filter_cons, ← ht3, ih hst]

theorem chain'_iff_adjPairs {α : Type} (r : α → α → Prop) :
    ∀ l : List α, l.Chain' r ↔ ∀ p ∈ adjPairs l, r p.1 p.2 := by
  intro l
  induction l with
  | nil => simp [adjPairs]
  | cons a t ih =>
    match t, ih with
    | [], _ => simp [adjPairs]
    | b :: t2, ih =>
      rw [List.chain'_cons, adjPairs_cons_cons, ih]
      constructor
      · rintro ⟨hr, h⟩ p hp
        rcases List.mem_cons.mp hp with h1 | h1
        · rw [h1]; exact hr
        · exact h p h1
      · intro h
        exact ⟨h (a, b) (by simp), fun p hp => h p (List.mem_cons_of_mem _ hp)⟩

/-- Claim C5 (confirmed): for a nonnegative tolerance, the gaps returned by
`detect_gaps` are exactly the consecutive pairs of the sorted, deduplicated
union `{window_start} ∪ timestamps ∪ {window_end}` whose difference exceeds
the tolerance; consequently zero differences (duplicate timestamps) never
produce a gap, and a series whose consecutive spacing never exceeds the
tolerance produces no gaps. -/
theorem detect_gaps_eq_sorted_union_gaps (arr : List Int) (start stop tol : Int)
    (htol : 0 ≤ tol) :
    detect_gaps arr start stop tol = sorted_union_gaps arr start stop tol ∧
    (∀ g ∈ detect_gaps arr start stop tol, g.1 < g.2) ∧
    (((start :: (arr ++ [stop])).insertionSort (· ≤ ·)).Chain'
        (fun a b => b - a ≤ tol) →
      detect_gaps arr start stop tol = []) := by
  refine ⟨?_, ?_, ?_⟩
  · exact filter_adjPairs_dedup tol htol _
      (List.sorted_insertionSort (· ≤ ·) (start :: (arr ++ [stop])))
  · intro g hg
    have := List.of_mem_filter hg
    simp only [decide_eq_true_eq] at this
    omega
  · intro hdense
    apply List.filter_eq_nil_iff.mpr
    intro p hp
    have := (chain'_iff_adjPairs (fun a b => b - a ≤ tol) _).mp hdense p hp
    simp only [decide_eq_true_eq]
    omega

/-- Witness for `detect_gaps_eq_sorted_union_gaps` at a concrete input. -/
theorem detect_gaps_eq_sorted_union_gaps_witness :
    (0 : Int) ≤ 86400 ∧
      (detect_gaps [5, 5, 100000] 0 200000 86400 =
          sorted_union_gaps [5, 5, 100000] 0 200000 86400 ∧
        (∀ g ∈ detect_gaps [5, 5, 100000] 0 200000 86400, g.1 < g.2) ∧
        ((([0, 5, 5, 100000, 200000] : List Int).insertionSort (· ≤ ·)).Chain'
            (fun a b => b - a ≤ 86400) →
          detect_gaps [5, 5, 100000] 0 200000 86400 = [])) :=
  ⟨by decide, detect_gaps_eq_sorted_union_gaps [5, 5, 100000] 0 200000 86400 (by decide)⟩

/-- Counterexample to claim C4 as stated: for the empty timestamp list the
code returns a gap only when the window is longer than the tolerance; with
window `(0, 1)` and the default tolerance of one day it returns no gap at
all, not the single gap `(0, 1)`. -/
theorem detect_gaps_empty_small_window_no_gap :
    detect_gaps [] 0 1 86400 = [] ∧ ([] : List (Int × Int)) ≠ [((0 : Int), (1 : Int))] := by
  constructor
  · decide
  · decide

/-- Claim C4 (amended): `detect_gaps` on an empty timestamp list returns
exactly the single gap `(start, stop)` provided the window is ordered and
its length exceeds the tolerance; otherwise (window not longer than the
tolerance) it returns no gap. -/
theorem detect_gaps_empty_window (start stop tol : Int) (h1 : start ≤ stop) :
    detect_gaps [] start stop tol =
      if tol < stop - start then [(start, stop)] else [] := by
  have hsort : (start :: ([] ++ [stop]) : List Int).insertionSort (· ≤ ·) = [start, stop] := by
    simp [List.insertionSort, List.orderedInsert, h1]
  by_cases h2 : tol < stop - start
  · simp only [detect_gaps, hsort, if_pos h2]
    simp [adjPairs, List.filter_cons, h2]
  · simp only [detect_gaps, hsort, if_neg h2]
    simp [adjPairs, List.filter_cons, h2]

/-- Witness for `detect_gaps_empty_window` at a concrete input. -/
theorem detect_gaps_empty_window_witness :
    (0 : Int) ≤ 200000 ∧
      detect_gaps [] 0 200000 86400 =
        if (86400 : Int) < 200000 - 0 then [((0 : Int), (200000 : Int))] else [] :=
  ⟨by decide, detect_gaps_empty_window 0 200000 86400 (by decide)⟩

/-! ## Scheduler: `run_parallel_tasks` in `src/functions/parallel.py`

A task is a Python dict with a `key`, a mutable list `dependencies`
(initialised from `lake_model_inflow` via `process_input`) and a mutable
string `status`.  The worker threads interleave three kinds of atomic
updates on the shared task list: `feed_the_workers` marks a single waiting
task with no remaining dependencies as running (and enqueues it); a
successful `run` marks the task succeeded and removes its key from every
other task's dependency list; a failing `run` (with the debug flag unset)
marks the task failed and removes nothing.  `Step` below is that labelled
transition relation; `schedLoop` is the sequential (single-worker, FIFO)
execution of the same loop, used for the termination and summary claims. -/

/-- The `lake_model_inflow` field of a lake's parameter dict: absent, a
single string, or a list of strings. -/
inductive InflowField where
  | absent : InflowField
  | str (s : String) : InflowField
  | list (l : List String) : InflowField

/-- `process_input` from `src/functions/general.py`: empty input (falsy or
`[""]`) becomes `[]`, a string becomes a singleton list, a list stays. -/
def process_input : InflowField → List String
  | InflowField.absent => []
  | InflowField.str s => if s = "" then [] else [s]
  | InflowField.list l => if l = [] ∨ l = [""] then [] else l

/-- A scheduler task: key, remaining dependency keys, status string
(one of "waiting", "running", "succeeded", "failed"). -/
structure Task where
  key : String
  deps : List String
  status : String
deriving DecidableEq

/-- Input of `run_parallel_tasks`: one entry per lake, with its key and its
`lake_model_inflow` field. -/
structure TaskSpec where
  key : String
  lake_model_inflow : InflowField

/-- Lines 11-15 and 20-21 of `parallel.py`: every task starts with
`dependencies = process_input(lake_model_inflow)` and status "waiting". -/
def initTasks (specs : List TaskSpec) : List Task :=
  specs.map (fun s => ⟨s.key, process_input s.lake_model_inflow, "waiting"⟩)

/-- The loop `for t in tasks: if task["key"] == t["key"]: t["status"] = st`. -/
def setStatus (ts : List Task) (k st : String) : List Task :=
  ts.map (fun t => if t.key = k then { t with status := st } else t)

/-- The loop `for t in tasks: if task["key"] in t["dependencies"]:
t["dependencies"].remove(task["key"])` (removes the first occurrence). -/
def removeDepKey (ts : List Task) (k : String) : List Task :=
  ts.map (fun t => { t with deps := t.deps.erase k })

/-- Observable scheduler actions, labelled by the task's key. -/
inductive Action where
  | feed (k : String) : Action
  | succeed (k : String) : Action
  | failed (k : String) : Action
deriving DecidableEq

/-- Default task used by the total indexing function `nth`. -/
def tdef : Task := ⟨"", [], ""⟩

/-- Total indexing into a task list. -/
def nth (ts : List Task) (i : Nat) : Task := ts.getD i tdef

/-- One atomic shared-state update of `run_parallel_tasks`:
* `feed`: `feed_the_workers` (lines 17-24) marks one waiting task whose
  dependency list is empty as running and enqueues it;
* `succeed`: a successful `run` (lines 38-44) removes the task's key from
  every dependency list and sets its status to "succeeded";
* `failure`: a failing `run` with the debug flag unset (lines 31-37) sets
  the task's status to "failed" and removes nothing. -/
inductive Step : List Task → Action → List Task → Prop where
  | feed (ts : List Task) (i : Nat) (h : i < ts.length)
      (hw : (ts.get ⟨i, h⟩).status = "waiting") (hd : (ts.get ⟨i, h⟩).deps = []) :
      Step ts (Action.feed (ts.get ⟨i, h⟩).key)
        (ts.set i { ts.get ⟨i, h⟩ with status := "running" })
  | succeed (ts : List Task) (t : Task) (ht : t ∈ ts) (hr : t.status = "running") :
      Step ts (Action.succeed t.key) (setStatus (removeDepKey ts t.key) t.key "succeeded")
  | failure (ts : List Task) (t : Task) (ht : t ∈ ts) (hr : t.status = "running") :
      Step ts (Action.failed t.key) (setStatus ts t.key "failed")

/-- Reachability of a shared state from the initial task list through any
interleaving of atomic scheduler updates (any worker count ≥ 1 only
restricts which interleavings occur, so properties of every reachable
state hold regardless of the worker count). -/
inductive Reaches : List Task → List Task → Prop where
  | refl (ts : List Task) : Reaches ts ts
  | tail {ts1 ts2 ts3 : List Task} {a : Action} :
      Reaches ts1 ts2 → Step ts2 a ts3 → Reaches ts1 ts3

/-- The end-of-run classification printed in lines 58-66 of `parallel.py`:
tasks still "waiting" are reported as "tasks had dependency failures"
(blocked); nothing is retried. -/
structure Summary where
  succeeded : List String
  failed : List String
  blocked : List String
deriving DecidableEq

def summary (ts : List Task) : Summary where
  succeeded := (ts.filter (fun t => t.status = "succeeded")).map Task.key
  failed := (ts.filter (fun t => t.status = "failed")).map Task.key
  blocked := (ts.filter (fun t => t.status = "waiting")).map Task.key

/-- Key `b` is a direct dependency of the task keyed `a` in the initial
task list. -/
def DepOn (init : List Task) (a b : String) : Prop :=
  ∃ t ∈ init, t.key = a ∧ b ∈ t.deps

/-- Transitive dependency between task keys of the initial task list. -/
def TransDepOn (init : List Task) : String → String → Prop :=
  Relation.TransGen (DepOn init)

theorem length_setStatus (ts : List Task) (k st : String) :
    (setStatus ts k st).length = ts.length := by
  simp [setStatus]

theorem length_removeDepKey (ts : List Task) (k : String) :
    (removeDepKey ts k).length = ts.length := by
  simp [removeDepKey]

theorem nth_eq_get (ts : List Task) (i : Nat) (h : i < ts.length) :
    nth ts i = ts.get ⟨i, h⟩ := by
  simp [nth, List.getD_eq_getElem?_getD, List.getElem?_eq_getElem h]

theorem nth_map (f : Task → Task) (ts : List Task) (i : Nat) (h : i < ts.length) :
    nth (ts.map f) i = f (nth ts i) := by
  rw [nth_eq_get _ i (by simpa using h), nth_eq_get _ i h]
  simp

theorem nth_setStatus (ts : List Task) (k st : String) (i : Nat) (h : i < ts.length) :
    nth (setStatus ts k st) i =
      if (nth ts i).key = k then { nth ts i with status := st } else nth ts i :=
  nth_map _ ts i h

theorem nth_removeDepKey (ts : List Task) (k : String) (i : Nat) (h : i < ts.length) :
    nth (removeDepKey ts k) i = { nth ts i with deps := (nth ts i).deps.erase k } :=
  nth_map _ ts i h

theorem nth_set_self (ts : List Task) (v : Task) (i : Nat) (h : i < ts.length) :
    nth (ts.set i v) i = v := by
  rw [nth_eq_get _ i (by simpa using h)]
  simp [List.getElem_set_self]

theorem nth_set_ne (ts : List Task) (v : Task) (i j : Nat) (hne : i ≠ j)
    (h : j < ts.length) : nth (ts.set i v) j = nth ts j := by
  rw [nth_eq_get _ j (by simpa using h), nth_eq_get _ j h]
  simp [List.getElem_set_ne hne]

theorem mem_iff_nth (ts : List Task) (t : Task) :
    t ∈ ts ↔ ∃ i, ∃ _ : i < ts.length, nth ts i = t := by
  rw [List.mem_iff_get]
  constructor
  · rintro ⟨⟨i, h⟩, rfl⟩
    exact ⟨i, h, nth_eq_get ts i h⟩
  · rintro ⟨i, h, hn⟩
    exact ⟨⟨i, h⟩, by rw [← nth_eq_get ts i h, hn]⟩

/-- The inductive invariant of the scheduler's shared state, relative to the
initial task list: keys are fixed, dependency lists only shrink, a task
that has left "waiting" has an empty dependency list, and a dependency key
is removed from a list only after every task carrying that key has
succeeded. -/
structure Inv (init ts : List Task) : Prop where
  len : ts.length = init.length
  key_eq : ∀ i, i < ts.length → (nth ts i).key = (nth init i).key
  deps_sub : ∀ i, i < ts.length → (nth ts i).deps ⊆ (nth init i).deps
  empty_deps : ∀ i, i < ts.length → (nth ts i).status ≠ "waiting" → (nth ts i).deps = []
  removed_succ : ∀ i, i < ts.length → ∀ k, k ∈ (nth init i).deps →
    k ∉ (nth ts i).deps →
    ∀ j, j < ts.length → (nth ts j).key = k → (nth ts j).status = "succeeded"

theorem nth_mem (ts : List Task) (i : Nat) (h : i < ts.length) : nth ts i ∈ ts := by
  rw [nth_eq_get ts i h]
  exact List.get_mem ts i h

theorem status_initTasks (specs : List TaskSpec) (t : Task) (ht : t ∈ initTasks specs) :
    t.status = "waiting" := by
  simp only [initTasks, List.mem_map] at ht
  obtain ⟨s, _, rfl⟩ := ht
  rfl

theorem inv_init (specs : List TaskSpec) : Inv (initTasks specs) (initTasks specs) := by
  refine ⟨rfl, fun i h => rfl, fun i h => List.Subset.refl _, ?_, ?_⟩
  · intro i h hst
    exact absurd (status_initTasks specs _ (nth_mem _ i h)) hst
  · intro i h k hk hnk
    exact absurd hk hnk

theorem map_key_eq (init ts : List Task) (hlen : ts.length = init.length)
    (hkey : ∀ i, i < ts.length → (nth ts i).key = (nth init i).key) :
    ts.map Task.key = init.map Task.key := by
  apply List.ext_get (by simpa using hlen)
  intro n h1 h2
  have hb1 : n < ts.length := by simpa using h1
  have hb2 : n < init.length := by simpa using h2
  simp only [List.get_map]
  rw [← nth_eq_get ts n hb1, ← nth_eq_get init n hb2]
  exact hkey n hb1

theorem key_inj (ts : List Task) (hnd : (ts.map Task.key).Nodup)
    (i j : Nat) (hi : i < ts.length) (hj : j < ts.length)
    (hk : (nth ts i).key = (nth ts j).key) : i = j := by
  have hinj := List.nodup_iff_injective_get.mp hnd
  have h1 : (ts.map Task.key).get ⟨i, by simpa using hi⟩ =
      (ts.map Task.key).get ⟨j, by simpa using hj⟩ := by
    simp only [List.get_map]
    rw [← nth_eq_get ts i hi, ← nth_eq_get ts j hj]
    exact hk
  exact congrArg Fin.val (hinj h1)

theorem inv_step {init ts ts2 : List Task} {a : Action}
    (hnd : (init.map Task.key).Nodup) (hinv : Inv init ts) (hs : Step ts a ts2) :
    Inv init ts2 := by
  obtain ⟨hlen, hkey, hsub, hemp, hrem⟩ := hinv
  have hndts : (ts.map Task.key).Nodup := by
    rw [map_key_eq init ts hlen hkey]; exact hnd
  cases hs with
  | feed i h hw hd =>
      have hni : nth ts i = ts.get ⟨i, h⟩ := nth_eq_get ts i h
      have hset : ∀ j, j < ts.length →
          nth (ts.set i { ts.get ⟨i, h⟩ with status := "running" }) j =
            if j = i then { nth ts i with status := "running" } else nth ts j := by
        intro j hj
        by_cases hji : j = i
        · subst hji
          rw [if_pos rfl, hni]
          exact nth_set_self ts _ j hj
        · rw [if_neg hji]
          exact nth_set_ne ts _ i j (fun he => hji he.symm) hj
      have hlen2 : (ts.set i { ts.get ⟨i, h⟩ with status := "running" }).length
          = ts.length := by simp
      refine ⟨by rw [hlen2, hlen], ?_, ?_, ?_, ?_⟩
      · intro j hj
        have hj' : j < ts.length := by rw [← hlen2]; exact hj
        rw [hset j hj']
        by_cases hji : j = i
        · subst hji; rw [if_pos rfl]; exact hkey j hj'
        · rw [if_neg hji]; exact hkey j hj'
      · intro j hj
        have hj' : j < ts.length := by rw [← hlen2]; exact hj
        rw [hset j hj']
        by_cases hji : j = i
        · subst hji; rw [if_pos rfl]; exact hsub j hj'
        · rw [if_neg hji]; exact hsub j hj'
      · intro j hj hst
        have hj' : j < ts.length := by rw [← hlen2]; exact hj
        rw [hset j hj'] at hst ⊢
        by_cases hji : j = i
        · subst hji
          rw [if_pos rfl]
          rw [← hni] at hd
          exact hd
        · rw [if_neg hji] at hst ⊢
          exact hemp j hj' hst
      · intro j hj k hk hnk m hm hkm
        have hj' : j < ts.length := by rw [← hlen2]; exact hj
        have hm' : m < ts.length := by rw [← hlen2]; exact hm
        rw [hset j hj'] at hnk
        have hnk' : k ∉ (nth ts j).deps := by
          by_cases hji : j = i
          · subst hji; rwa [if_pos rfl] at hnk
          · rwa [if_neg hji] at hnk
        have hall := hrem j hj' k hk hnk'
        rw [hset m hm'] at hkm ⊢
        by_cases hmi : m = i
        · subst hmi
          rw [if_pos rfl] at hkm
          have := hall m hm' hkm
          rw [← hni] at hw
          rw [hw] at this
          exact absurd this (by decide)
        · rw [if_neg hmi] at hkm ⊢
          exact hall m hm' hkm
  | succeed t ht hr =>
      obtain ⟨it, hit, hnt⟩ := (mem_iff_nth ts t).mp ht
      have hts2 : ∀ j, j < ts.length →
          nth (setStatus (removeDepKey ts t.key) t.key "succeeded") j =
            if (nth ts j).key = t.key then
              ⟨(nth ts j).key, (nth ts j).deps.erase t.key, "succeeded"⟩
            else ⟨(nth ts j).key, (nth ts j).deps.erase t.key, (nth ts j).status⟩ := by
        intro j hj
        have hj2 : j < (removeDepKey ts t.key).length := by
          rw [length_removeDepKey]; exact hj
        rw [nth_setStatus _ _ _ j hj2, nth_removeDepKey ts _ j hj]
      have hlen2 : (setStatus (removeDepKey ts t.key) t.key "succeeded").length
          = ts.length := by rw [length_setStatus, length_removeDepKey]
      refine ⟨by rw [hlen2, hlen], ?_, ?_, ?_, ?_⟩
      · intro j hj
        have hj' : j < ts.length := by rw [← hlen2]; exact hj
        rw [hts2 j hj']
        by_cases hkj : (nth ts j).key = t.key
        · rw [if_pos hkj]; exact hkey j hj'
        · rw [if_neg hkj]; exact hkey j hj'
      · intro j hj
        have hj' : j < ts.length := by rw [← hlen2]; exact hj
        rw [hts2 j hj']
        have herase : (nth ts j).deps.erase t.key ⊆ (nth init j).deps :=
          fun x hx => hsub j hj' (List.erase_subset _ _ hx)
        by_cases hkj : (nth ts j).key = t.key
        · rw [if_pos hkj]; exact herase
        · rw [if_neg hkj]; exact herase
      · intro j hj hst
        have hj' : j < ts.length := by rw [← hlen2]; exact hj
        rw [hts2 j hj'] at hst ⊢
        by_cases hkj : (nth ts j).key = t.key
        · rw [if_pos hkj] at hst ⊢
          have hji : j = it := by
            apply key_inj ts hndts j it hj' hit
            rw [hnt, hkj]
          subst hji
          have : (nth ts j).deps = [] := by
            apply hemp j hj'
            rw [hnt, hr]
            decide
          simp [this]
        · rw [if_neg hkj] at hst ⊢
          have : (nth ts j).deps = [] := hemp j hj' hst
          simp [this]
      · intro j hj k hk hnk m hm hkm
        have hj' : j < ts.length := by rw [← hlen2]; exact hj
        have hm' : m < ts.length := by rw [← hlen2]; exact hm
        rw [hts2 j hj'] at hnk
        have hnk2 : k ∉ (nth ts j).deps.erase t.key := by
          by_cases hkj : (nth ts j).key = t.key
          · rwa [if_pos hkj] at hnk
          · rwa [if_neg hkj] at hnk
        rw [hts2 m hm'] at hkm ⊢
        by_cases hkk : k = t.key
        · subst hkk
          by_cases hkm2 : (nth ts m).key = t.key
          · rw [if_pos hkm2]
          · rw [if_neg hkm2] at hkm ⊢
            exact absurd hkm hkm2
        · have hnk3 : k ∉ (nth ts j).deps := by
            intro hmem
            exact hnk2 ((List.mem_erase_of_ne hkk).mpr hmem)
          have hall := hrem j hj' k hk hnk3
          by_cases hkm2 : (nth ts m).key = t.key
          · rw [if_pos hkm2]
          · rw [if_neg hkm2] at hkm ⊢
            exact hall m hm' hkm
  | failure t ht hr =>
      obtain ⟨it, hit, hnt⟩ := (mem_iff_nth ts t).mp ht
      have hts2 : ∀ j, j < ts.length →
          nth (setStatus ts t.key "failed") j =
            if (nth ts j).key = t.key then { nth ts j with status := "failed" }
            else nth ts j := nth_setStatus ts t.key "failed"
      have hlen2 : (setStatus ts t.key "failed").length = ts.length :=
        length_setStatus ts t.key "failed"
      refine ⟨by rw [hlen2, hlen], ?_, ?_, ?_, ?_⟩
      · intro j hj
        have hj' : j < ts.length := by rw [← hlen2]; exact hj
        rw [hts2 j hj']
        by_cases hkj : (nth ts j).key = t.key
        · rw [if_pos hkj]; exact hkey j hj'
        · rw [if_neg hkj]; exact hkey j hj'
      · intro j hj
        have hj' : j < ts.length := by rw [← hlen2]; exact hj
        rw [hts2 j hj']
        by_cases hkj : (nth ts j).key = t.key
        · rw [if_pos hkj]; exact hsub j hj'
        · rw [if_neg hkj]; exact hsub j hj'
      · intro j hj hst
        have hj' : j < ts.length := by rw [← hlen2]; exact hj
        rw [hts2 j hj'] at hst ⊢
        by_cases hkj : (nth ts j).key = t.key
        · rw [if_pos hkj]
          have hji : j = it := by
            apply key_inj ts hndts j it hj' hit
            rw [hnt, hkj]
          subst hji
          apply hemp j hj'
          rw [hnt, hr]
          decide
        · rw [if_neg hkj] at hst ⊢
          exact hemp j hj' hst
      · intro j hj k hk hnk m hm hkm
        have hj' : j < ts.length := by rw [← hlen2]; exact hj
        have hm' : m < ts.length := by rw [← hlen2]; exact hm
        rw [hts2 j hj'] at hnk
        have hnk' : k ∉ (nth ts j).deps := by
          by_cases hkj : (nth ts j).key = t.key
          · rwa [if_pos hkj] at hnk
          · rwa [if_neg hkj] at hnk
        have hall := hrem j hj' k hk hnk'
        by_cases hkk : k = t.key
        · subst hkk
          exfalso
          have := hall it hit (by rw [hnt])
          rw [hnt, hr] at this
          exact absurd this (by decide)
        · rw [hts2 m hm'] at hkm ⊢
          by_cases hkm2 : (nth ts m).key = t.key
          · rw [if_pos hkm2] at hkm
            exact absurd (hkm.symm.trans hkm2) hkk
          · rw [if_neg hkm2] at hkm ⊢
            exact hall m hm' hkm

theorem inv_reaches {init ts : List Task} (hnd : (init.map Task.key).Nodup)
    (hinit : Inv init init) (hr : Reaches init ts) : Inv init ts := by
  induction hr with
  | refl => exact hinit
  | tail _ hs ih => exact inv_step hnd ih hs

theorem transDep_head_task {init : List Task} {a b : String}
    (h : TransDepOn init a b) : ∃ t ∈ init, t.key = a := by
  induction h with
  | single h => obtain ⟨t, ht, hk, _⟩ := h; exact ⟨t, ht, hk⟩
  | tail _ _ ih => exact ih

theorem eq_of_key_eq (ts : List Task) (hnd : (ts.map Task.key).Nodup)
    (t u : Task) (ht : t ∈ ts) (hu : u ∈ ts) (hk : t.key = u.key) : t = u := by
  obtain ⟨i, hi, hni⟩ := (mem_iff_nth ts t).mp ht
  obtain ⟨j, hj, hnj⟩ := (mem_iff_nth ts u).mp hu
  have : i = j := key_inj ts hnd i j hi hj (by rw [hni, hnj]; exact hk)
  rw [← hni, ← hnj, this]

theorem waiting_of_trans_dep_failed {init ts : List Task}
    (hnd : (init.map Task.key).Nodup) (hinv : Inv init ts)
    {fk : String} (tf : Task) (htf : tf ∈ ts) (hfk : tf.key = fk)
    (hfail : tf.status = "failed") :
    ∀ a, TransDepOn init a fk → ∀ u, u ∈ ts → u.key = a →
      u.status = "waiting" ∧ u.deps ≠ [] := by
  obtain ⟨hlen, hkey, hsub, hemp, hrem⟩ := hinv
  obtain ⟨jf, hjf, hnf⟩ := (mem_iff_nth ts tf).mp htf
  intro a h
  induction h using Relation.TransGen.head_induction_on with
  | base hdep =>
    rename_i a'
    intro u hu hku
    obtain ⟨tI, htI, hkI, hdI⟩ := hdep
    obtain ⟨iu, hiu, hniu⟩ := (mem_iff_nth ts u).mp hu
    obtain ⟨iI, hiI, hniI⟩ := (mem_iff_nth init tI).mp htI
    have hIu : iI = iu := by
      apply key_inj init hnd iI iu hiI (by rw [← hlen]; exact hiu)
      rw [hniI, hkI, ← hku, ← hniu]
      exact hkey iu hiu
    have hdIu : fk ∈ (nth init iu).deps := by
      rw [← hIu, hniI]; exact hdI
    have hfkin : fk ∈ u.deps := by
      by_contra hnot
      have := hrem iu hiu fk hdIu (by rw [hniu]; exact hnot) jf hjf
        (by rw [hnf]; exact hfk)
      rw [hnf, hfail] at this
      exact absurd this (by decide)
    have hne : u.deps ≠ [] := List.ne_nil_of_mem hfkin
    refine ⟨?_, hne⟩
    by_contra hw
    have := hemp iu hiu (by rw [hniu]; exact hw)
    rw [hniu] at this
    exact hne this
  | ih hdep htrans ihm =>
    rename_i a' c
    intro u hu hku
    obtain ⟨tI, htI, hkI, hdI⟩ := hdep
    obtain ⟨iu, hiu, hniu⟩ := (mem_iff_nth ts u).mp hu
    obtain ⟨iI, hiI, hniI⟩ := (mem_iff_nth init tI).mp htI
    have hIu : iI = iu := by
      apply key_inj init hnd iI iu hiI (by rw [← hlen]; exact hiu)
      rw [hniI, hkI, ← hku, ← hniu]
      exact hkey iu hiu
    have hdIu : c ∈ (nth init iu).deps := by
      rw [← hIu, hniI]; exact hdI
    obtain ⟨tm, htm, hktm⟩ := transDep_head_task htrans
    obtain ⟨im, him, hnim⟩ := (mem_iff_nth init tm).mp htm
    have himts : im < ts.length := by rw [hlen]; exact him
    have hmkey : (nth ts im).key = c := by
      rw [hkey im himts, hnim]; exact hktm
    have hmwait : (nth ts im).status = "waiting" :=
      (ihm (nth ts im) (nth_mem ts im himts) hmkey).1
    have hcin : c ∈ u.deps := by
      by_contra hnot
      have := hrem iu hiu c hdIu (by rw [hniu]; exact hnot) im himts hmkey
      rw [hmwait] at this
      exact absurd this (by decide)
    have hne : u.deps ≠ [] := List.ne_nil_of_mem hcin
    refine ⟨?_, hne⟩
    by_contra hw
    have := hemp iu hiu (by rw [hniu]; exact hw)
    rw [hniu] at this
    exact hne this

theorem mem_summary_blocked (ts : List Task) (t : Task) (ht : t ∈ ts)
    (hw : t.status = "waiting") : t.key ∈ (summary ts).blocked := by
  apply List.mem_map_of_mem
  exact List.mem_filter.mpr ⟨ht, by simp [hw]⟩

theorem not_mem_summary_of_status (ts : List Task)
    (hnd : (ts.map Task.key).Nodup) (t : Task) (ht : t ∈ ts) (st : String)
    (hne : t.status ≠ st) :
    t.key ∉ ((ts.filter (fun u => u.status = st)).map Task.key) := by
  intro hmem
  obtain ⟨u, hu, hku⟩ := List.mem_map.mp hmem
  have hu2 := List.mem_filter.mp hu
  have hust : u.status = st := by simpa using hu2.2
  have : t = u := eq_of_key_eq ts hnd t u ht hu2.1 hku.symm
  rw [this] at hne
  exact hne hust

/-- Claim C1 (confirmed): in every state reachable from the initial task
list (under any interleaving of worker updates, hence for every worker
count ≥ 1), if some task has failed, then the failed task's key has not
been removed from any dependency list in which it started, and every task
that transitively depends (along the initial dependency edges) on the
failed task still has a non-empty dependency list, has status "waiting",
appears in the final summary's dependency-failure (blocked) list and in
neither the succeeded nor the failed list, and can never be fed, executed
to success, or executed to failure by any further scheduler step (so it is
never executed and never retried). -/
theorem failed_dependency_blocked (specs : List TaskSpec)
    (hnd : ((initTasks specs).map Task.key).Nodup)
    {ts : List Task} (hr : Reaches (initTasks specs) ts)
    (tf : Task) (htf : tf ∈ ts) (hfail : tf.status = "failed")
    (td : Task) (htd : td ∈ ts)
    (hdep : TransDepOn (initTasks specs) td.key tf.key) :
    td.status = "waiting" ∧ td.deps ≠ [] ∧
      (∀ i, i < ts.length → tf.key ∈ (nth (initTasks specs) i).deps →
        tf.key ∈ (nth ts i).deps) ∧
      td.key ∈ (summary ts).blocked ∧
      td.key ∉ (summary ts).succeeded ∧ td.key ∉ (summary ts).failed ∧
      (∀ a ts2, Step ts a ts2 → a ≠ Action.feed td.key ∧
        a ≠ Action.succeed td.key ∧ a ≠ Action.failed td.key) := by
  have hinv := inv_reaches hnd (inv_init specs) hr
  have hndts : (ts.map Task.key).Nodup := by
    rw [map_key_eq (initTasks specs) ts hinv.len hinv.key_eq]; exact hnd
  obtain ⟨hwait, hne⟩ :=
    waiting_of_trans_dep_failed hnd hinv tf htf rfl hfail td.key hdep td htd rfl
  obtain ⟨jf, hjf, hnf⟩ := (mem_iff_nth ts tf).mp htf
  refine ⟨hwait, hne, ?_, ?_, ?_, ?_, ?_⟩
  · intro i hi hin
    by_contra hnot
    have := hinv.removed_succ i hi tf.key hin hnot jf hjf (by rw [hnf])
    rw [hnf, hfail] at this
    exact absurd this (by decide)
  · exact mem_summary_blocked ts td htd hwait
  · exact not_mem_summary_of_status ts hndts td htd "succeeded"
      (by rw [hwait]; decide)
  · exact not_mem_summary_of_status ts hndts td htd "failed"
      (by rw [hwait]; decide)
  · intro a ts2 hstep
    cases hstep with
    | feed i h hw hd =>
      refine ⟨?_, by simp, by simp⟩
      intro haction
      have hk : (ts.get ⟨i, h⟩).key = td.key := by
        injection haction with hk
      have : ts.get ⟨i, h⟩ = td :=
        eq_of_key_eq ts hndts _ td (List.get_mem ts i h) htd hk
      rw [this] at hd
      exact hne hd
    | succeed t ht hrun =>
      refine ⟨by simp, ?_, by simp⟩
      intro haction
      have hk : t.key = td.key := by injection haction with hk
      have : t = td := eq_of_key_eq ts hndts t td ht htd hk
      rw [this, hwait] at hrun
      exact absurd hrun (by decide)
    | failure t ht hrun =>
      refine ⟨by simp, by simp, ?_⟩
      intro haction
      have hk : t.key = td.key := by injection haction with hk
      have : t = td := eq_of_key_eq ts hndts t td ht htd hk
      rw [this, hwait] at hrun
      exact absurd hrun (by decide)

def wspecs : List TaskSpec :=
  [⟨"A", InflowField.absent⟩, ⟨"B", InflowField.list ["A"]⟩]

def wts1 : List Task := [⟨"A", [], "running"⟩, ⟨"B", ["A"], "waiting"⟩]

def wts2 : List Task := [⟨"A", [], "failed"⟩, ⟨"B", ["A"], "waiting"⟩]

theorem wstep1 : Step (initTasks wspecs) (Action.feed "A") wts1 :=
  Step.feed (initTasks wspecs) 0 (by decide) (by decide) (by decide)

theorem wstep2 : Step wts1 (Action.failed "A") wts2 :=
  Step.failure wts1 ⟨"A", [], "running"⟩ (by decide) rfl

theorem wreach : Reaches (initTasks wspecs) wts2 :=
  Reaches.tail (Reaches.tail (Reaches.refl _) wstep1) wstep2

theorem wdep : TransDepOn (initTasks wspecs) "B" "A" :=
  Relation.TransGen.single ⟨⟨"B", ["A"], "waiting"⟩, by decide, rfl, by decide⟩

/-- Witness for `failed_dependency_blocked`: two tasks A and B, B depending
on A; A is fed, then fails; B is blocked. -/
theorem failed_dependency_blocked_witness :
    ((initTasks wspecs).map Task.key).Nodup ∧
      ((Task.mk "B" ["A"] "waiting").status = "waiting" ∧
        (Task.mk "B" ["A"] "waiting").deps ≠ [] ∧
        (∀ i, i < wts2.length →
          (Task.mk "A" ([] : List String) "failed").key ∈ (nth (initTasks wspecs) i).deps →
          (Task.mk "A" ([] : List String) "failed").key ∈ (nth wts2 i).deps) ∧
        (Task.mk "B" ["A"] "waiting").key ∈ (summary wts2).blocked ∧
        (Task.mk "B" ["A"] "waiting").key ∉ (summary wts2).succeeded ∧
        (Task.mk "B" ["A"] "waiting").key ∉ (summary wts2).failed ∧
        (∀ a ts2, Step wts2 a ts2 → a ≠ Action.feed (Task.mk "B" ["A"] "waiting").key ∧
          a ≠ Action.succeed (Task.mk "B" ["A"] "waiting").key ∧
          a ≠ Action.failed (Task.mk "B" ["A"] "waiting").key)) :=
  ⟨by decide,
    failed_dependency_blocked wspecs (by decide) wreach
      ⟨"A", [], "failed"⟩ (by decide) rfl
      ⟨"B", ["A"], "waiting"⟩ (by decide) wdep⟩

/-- Claim C2 (confirmed): in every reachable scheduler state, a `feed` step
(the only transition from "waiting" to "running", which is also the moment
the task is enqueued) can fire for a task only when that task's status is
"waiting" and its dependency list is empty; moreover, at that moment every
initial dependency of the fed task that is the key of some task belongs to
a task whose status is already "succeeded" — a task never starts executing
before all the tasks it depends on have succeeded. -/
theorem feed_only_when_ready (specs : List TaskSpec)
    (hnd : ((initTasks specs).map Task.key).Nodup)
    {ts ts2 : List Task} (hr : Reaches (initTasks specs) ts)
    {k : String} (hstep : Step ts (Action.feed k) ts2) :
    (∃ i, ∃ h : i < ts.length, (ts.get ⟨i, h⟩).key = k ∧
      (ts.get ⟨i, h⟩).status = "waiting" ∧ (ts.get ⟨i, h⟩).deps = []) ∧
    (∀ dk, DepOn (initTasks specs) k dk →
      ∀ u, u ∈ ts → u.key = dk → u.status = "succeeded") := by
  have hinv := inv_reaches hnd (inv_init specs) hr
  cases hstep with
  | feed i h hw hd =>
    refine ⟨⟨i, h, rfl, hw, hd⟩, ?_⟩
    intro dk hdep u hu hku
    obtain ⟨tI, htI, hkI, hdI⟩ := hdep
    obtain ⟨iI, hiI, hniI⟩ := (mem_iff_nth (initTasks specs) tI).mp htI
    have hIi : iI = i := by
      apply key_inj (initTasks specs) hnd iI i hiI (by rw [← hinv.len]; exact h)
      rw [hniI, hkI, ← hinv.key_eq i h, nth_eq_get ts i h]
    have hdIi : dk ∈ (nth (initTasks specs) i).deps := by
      rw [← hIi, hniI]; exact hdI
    have hnotin : dk ∉ (nth ts i).deps := by
      rw [nth_eq_get ts i h, hd]
      exact List.not_mem_nil dk
    obtain ⟨iu, hiu, hniu⟩ := (mem_iff_nth ts u).mp hu
    have := hinv.removed_succ i h dk hdIi hnotin iu hiu (by rw [hniu]; exact hku)
    rw [hniu] at this
    exact this

/-- Witness for `feed_only_when_ready`: task A (no dependencies) is fed
from the initial state. -/
theorem feed_only_when_ready_witness :
    ((initTasks wspecs).map Task.key).Nodup ∧
      ((∃ i, ∃ h : i < (initTasks wspecs).length,
          ((initTasks wspecs).get ⟨i, h⟩).key = "A" ∧
          ((initTasks wspecs).get ⟨i, h⟩).status = "waiting" ∧
          ((initTasks wspecs).get ⟨i, h⟩).deps = []) ∧
        (∀ dk, DepOn (initTasks wspecs) "A" dk →
          ∀ u, u ∈ initTasks wspecs → u.key = dk → u.status = "succeeded")) :=
  ⟨by decide,
    feed_only_when_ready wspecs (by decide) (Reaches.refl _) wstep1⟩

/-- `feed_the_workers` (lines 17-24): every waiting task whose dependency
list is empty is marked running. -/
def stepFeedMark (ts : List Task) : List Task :=
  ts.map (fun t =>
    if t.deps = [] ∧ t.status = "waiting" then { t with status := "running" } else t)

/-- The keys `feed_the_workers` enqueues (`q.put(task)`), in list order. -/
def stepFeedKeys (ts : List Task) : List String :=
  (ts.filter (fun t => t.deps = [] ∧ t.status = "waiting")).map Task.key

/-- Sequential (single-worker, FIFO) execution of the scheduler loop of
`run_parallel_tasks`: the queue holds the keys of tasks already marked
running; `outcome k = true` models `code_function` returning normally for
task `k`, `false` models it raising an exception.  On success the task's
key is removed from every dependency list and its status becomes
"succeeded"; on an exception with the debug flag set the exception
propagates out of the scheduler (`Except.error`), otherwise the status
becomes "failed"; in both surviving cases `feed_the_workers` runs again.
`none` is returned only on fuel exhaustion; `schedLoop_ok` shows that
`run_parallel_tasks` always supplies enough fuel. -/
def schedLoop (debug : Bool) (outcome : String → Bool) :
    Nat → List Task → List String → Option (Except Unit (List Task))
  | 0, _, _ => none
  | _ + 1, ts, [] => some (Except.ok ts)
  | n + 1, ts, k :: q =>
    if outcome k then
      let ts2 := setStatus (removeDepKey ts k) k "succeeded"
      schedLoop debug outcome n (stepFeedMark ts2) (q ++ stepFeedKeys ts2)
    else if debug then some (Except.error ())
    else
      let ts2 := setStatus ts k "failed"
      schedLoop debug outcome n (stepFeedMark ts2) (q ++ stepFeedKeys ts2)

/-- Number of tasks still in status "waiting". -/
def countWaiting (ts : List Task) : Nat :=
  (ts.filter (fun t => t.status = "waiting")).length

/-- `run_parallel_tasks` (sequential semantics): initialise the dependency
lists, run `feed_the_workers` once, drain the queue, and classify every
task in the final summary. -/
def run_parallel_tasks (debug : Bool) (outcome : String → Bool)
    (specs : List TaskSpec) : Option (Except Unit Summary) :=
  let ts0 := initTasks specs
  match schedLoop debug outcome (countWaiting ts0 + 1) (stepFeedMark ts0)
      (stepFeedKeys ts0) with
  | none => none
  | some (Except.error e) => some (Except.error e)
  | some (Except.ok ts) => some (Except.ok (summary ts))

theorem countWaiting_cons (t : Task) (rest : List Task) :
    countWaiting (t :: rest) =
      countWaiting rest + (if t.status = "waiting" then 1 else 0) := by
  by_cases h : t.status = "waiting" <;>
    simp [countWaiting, List.filter_cons, h, Nat.add_comm]

theorem countWaiting_removeDepKey (ts : List Task) (k : String) :
    countWaiting (removeDepKey ts k) = countWaiting ts := by
  induction ts with
  | nil => rfl
  | cons t rest ih =>
    show countWaiting ({ t with deps := t.deps.erase k } :: removeDepKey rest k) = _
    rw [countWaiting_cons, countWaiting_cons, ih]

theorem countWaiting_setStatus_le (ts : List Task) (k st : String)
    (hst : st ≠ "waiting") :
    countWaiting (setStatus ts k st) ≤ countWaiting ts := by
  induction ts with
  | nil => exact Nat.le_refl _
  | cons t rest ih =>
    show countWaiting ((if t.key = k then { t with status := st } else t)
        :: setStatus rest k st) ≤ _
    rw [countWaiting_cons, countWaiting_cons]
    by_cases hk : t.key = k
    · rw [if_pos hk]
      have : ({ t with status := st } : Task).status = st := rfl
      rw [this]
      rw [if_neg hst]
      by_cases hw : t.status = "waiting" <;> simp [hw] <;> omega
    · rw [if_neg hk]
      omega

theorem stepFeedKeys_cons (t : Task) (rest : List Task) :
    stepFeedKeys (t :: rest) =
      (if t.deps = [] ∧ t.status = "waiting" then [t.key] else []) ++
        stepFeedKeys rest := by
  by_cases h : t.deps = [] ∧ t.status = "waiting" <;>
    simp [stepFeedKeys, List.filter_cons, h]

theorem countWaiting_stepFeedMark (ts : List Task) :
    countWaiting (stepFeedMark ts) + (stepFeedKeys ts).length = countWaiting ts := by
  induction ts with
  | nil => rfl
  | cons t rest ih =>
    show countWaiting ((if t.deps = [] ∧ t.status = "waiting"
        then { t with status := "running" } else t) :: stepFeedMark rest) +
      (stepFeedKeys (t :: rest)).length = _
    rw [countWaiting_cons, stepFeedKeys_cons, countWaiting_cons]
    by_cases h : t.deps = [] ∧ t.status = "waiting"
    · rw [if_pos h, if_pos h]
      have h1 : ({ t with status := "running" } : Task).status = "running" := rfl
      rw [h1, if_pos h.2, if_neg (by decide : ¬ ("running" = "waiting"))]
      simp only [List.length_append, List.length_cons, List.length_nil]
      omega
    · rw [if_neg h, if_neg h]
      simp only [List.nil_append]
      omega

theorem schedLoop_ok (outcome : String → Bool) :
    ∀ fuel ts q, countWaiting ts + q.length < fuel →
      ∃ ts2, schedLoop false outcome fuel ts q = some (Except.ok ts2) := by
  intro fuel
  induction fuel with
  | zero => intro ts q h; omega
  | succ n ih =>
    intro ts q h
    match q with
    | [] => exact ⟨ts, rfl⟩
    | k :: q2 =>
      by_cases hk : outcome k = true
      · have hm : countWaiting
            (stepFeedMark (setStatus (removeDepKey ts k) k "succeeded")) +
            (q2 ++ stepFeedKeys (setStatus (removeDepKey ts k) k "succeeded")).length
              < n := by
          have h1 := countWaiting_stepFeedMark
            (setStatus (removeDepKey ts k) k "succeeded")
          have h2 := countWaiting_setStatus_le (removeDepKey ts k) k "succeeded"
            (by decide)
          have h3 := countWaiting_removeDepKey ts k
          simp only [List.length_append, List.length_cons] at h ⊢
          omega
        obtain ⟨ts2, hts2⟩ := ih _ _ hm
        refine ⟨ts2, ?_⟩
        rw [show schedLoop false outcome (n + 1) ts (k :: q2) =
          (if outcome k then
            schedLoop false outcome n
              (stepFeedMark (setStatus (removeDepKey ts k) k "succeeded"))
              (q2 ++ stepFeedKeys (setStatus (removeDepKey ts k) k "succeeded"))
          else
            schedLoop false outcome n (stepFeedMark (setStatus ts k "failed"))
              (q2 ++ stepFeedKeys (setStatus ts k "failed"))) from by
            simp [schedLoop]]
        rw [if_pos hk]
        exact hts2
      · have hkf : outcome k = false := by
          cases ho : outcome k
          · rfl
          · exact absurd ho hk
        have hm : countWaiting (stepFeedMark (setStatus ts k "failed")) +
            (q2 ++ stepFeedKeys (setStatus ts k "failed")).length < n := by
          have h1 := countWaiting_stepFeedMark (setStatus ts k "failed")
          have h2 := countWaiting_setStatus_le ts k "failed" (by decide)
          simp only [List.length_append, List.length_cons] at h ⊢
          omega
        obtain ⟨ts2, hts2⟩ := ih _ _ hm
        refine ⟨ts2, ?_⟩
        rw [show schedLoop false outcome (n + 1) ts (k :: q2) =
          (if outcome k then
            schedLoop false outcome n
              (stepFeedMark (setStatus (removeDepKey ts k) k "succeeded"))
              (q2 ++ stepFeedKeys (setStatus (removeDepKey ts k) k "succeeded"))
          else
            schedLoop false outcome n (stepFeedMark (setStatus ts k "failed"))
              (q2 ++ stepFeedKeys (setStatus ts k "failed"))) from by
            simp [schedLoop]]
        rw [if_neg (by rw [hkf]; exact Bool.false_ne_true)]
        exact hts2

/-- Claim C3 (confirmed, sequential semantics): when the task at the head
of the queue raises an exception (`outcome k = false`):
with the debug flag set the exception propagates out of the scheduler and
the whole run halts (`Except.error`); with the debug flag unset the
exception is caught and converted into status "failed" for that task,
every task with a different key is left exactly as it was, and the
scheduler continues and (given the fuel bound that `run_parallel_tasks`
always supplies) completes normally. -/
theorem task_exception_isolation (outcome : String → Bool) (k : String)
    (ts : List Task) (q : List String) (n : Nat) (hout : outcome k = false) :
    schedLoop true outcome (n + 1) ts (k :: q) = some (Except.error ()) ∧
    schedLoop false outcome (n + 1) ts (k :: q) =
      schedLoop false outcome n (stepFeedMark (setStatus ts k "failed"))
        (q ++ stepFeedKeys (setStatus ts k "failed")) ∧
    (∀ t ∈ setStatus ts k "failed", t.key = k → t.status = "failed") ∧
    (∀ t ∈ ts, t.key ≠ k → t ∈ setStatus ts k "failed") ∧
    (countWaiting ts + (k :: q).length < n + 1 →
      ∃ ts2, schedLoop false outcome (n + 1) ts (k :: q) = some (Except.ok ts2)) := by
  refine ⟨?_, ?_, ?_, ?_, ?_⟩
  · simp [schedLoop, hout]
  · simp [schedLoop, hout]
  · intro t ht hk
    obtain ⟨u, hu, huf⟩ := List.mem_map.mp ht
    by_cases hku : u.key = k
    · rw [← huf, if_pos hku]
    · rw [← huf, if_neg hku] at hk ⊢
      exact absurd hk hku
  · intro t ht hne
    exact List.mem_map.mpr ⟨t, ht, by rw [if_neg hne]⟩
  · intro hfuel
    exact schedLoop_ok outcome (n + 1) ts (k :: q) hfuel

/-- Witness for `task_exception_isolation`: task A (running, at the head of
the queue) raises, with task B waiting on it. -/
theorem task_exception_isolation_witness :
    (fun (_ : String) => false) "A" = false ∧
      (schedLoop true (fun _ => false) 2 wts1 ["A"] = some (Except.error ()) ∧
        schedLoop false (fun _ => false) 2 wts1 ["A"] =
          schedLoop false (fun _ => false) 1
            (stepFeedMark (setStatus wts1 "A" "failed"))
            ([] ++ stepFeedKeys (setStatus wts1 "A" "failed")) ∧
        (∀ t ∈ setStatus wts1 "A" "failed", t.key = "A" → t.status = "failed") ∧
        (∀ t ∈ wts1, t.key ≠ "A" → t ∈ setStatus wts1 "A" "failed") ∧
        (countWaiting wts1 + (["A"] : List String).length < 2 →
          ∃ ts2, schedLoop false (fun _ => false) 2 wts1 ["A"] =
            some (Except.ok ts2))) :=
  ⟨rfl, task_exception_isolation (fun _ => false) "A" wts1 [] 1 rfl⟩

theorem mem_map_form (f : Task → Task) (ts : List Task) (u : Task)
    (hu : u ∈ ts.map f) : ∃ t ∈ ts, u = f t := by
  obtain ⟨t, ht, hf⟩ := List.mem_map.mp hu
  exact ⟨t, ht, hf.symm⟩

/-- Invariant carried through the scheduler loop for claim C10: `g` is not
the key of any task, some task is keyed `dkey`, and every task keyed
`dkey` still has `g` among its dependencies and is still waiting. -/
def DanglingInv (g dkey : String) (ts : List Task) : Prop :=
  (∀ t ∈ ts, t.key ≠ g) ∧ (∃ t ∈ ts, t.key = dkey) ∧
    (∀ t ∈ ts, t.key = dkey → g ∈ t.deps ∧ t.status = "waiting")

theorem danglingInv_setStatus (g dkey k st : String) (hkd : k ≠ dkey)
    (ts : List Task) (h : DanglingInv g dkey ts) :
    DanglingInv g dkey (setStatus ts k st) := by
  obtain ⟨h1, ⟨td, htd, hktd⟩, h3⟩ := h
  have hkey : ∀ t : Task,
      ((if t.key = k then { t with status := st } else t) : Task).key = t.key := by
    intro t
    by_cases hk : t.key = k <;> simp [hk]
  refine ⟨?_, ?_, ?_⟩
  · intro u hu
    obtain ⟨t, ht, rfl⟩ := mem_map_form _ ts u hu
    rw [hkey t]
    exact h1 t ht
  · refine ⟨_, List.mem_map_of_mem _ htd, ?_⟩
    rw [hkey td]
    exact hktd
  · intro u hu hk
    obtain ⟨t, ht, rfl⟩ := mem_map_form _ ts u hu
    rw [hkey t] at hk
    have hne : t.key ≠ k := by rw [hk]; exact fun he => hkd he.symm
    rw [if_neg hne]
    exact h3 t ht hk

theorem danglingInv_removeDepKey (g dkey k : String) (hkg : k ≠ g)
    (ts : List Task) (h : DanglingInv g dkey ts) :
    DanglingInv g dkey (removeDepKey ts k) := by
  obtain ⟨h1, ⟨td, htd, hktd⟩, h3⟩ := h
  refine ⟨?_, ?_, ?_⟩
  · intro u hu
    obtain ⟨t, ht, rfl⟩ := mem_map_form _ ts u hu
    exact h1 t ht
  · exact ⟨{ td with deps := td.deps.erase k }, List.mem_map_of_mem _ htd, hktd⟩
  · intro u hu hk
    obtain ⟨t, ht, rfl⟩ := mem_map_form _ ts u hu
    obtain ⟨hg, hw⟩ := h3 t ht hk
    exact ⟨(List.mem_erase_of_ne (Ne.symm hkg)).mpr hg, hw⟩

theorem danglingInv_stepFeedMark (g dkey : String)
    (ts : List Task) (h : DanglingInv g dkey ts) :
    DanglingInv g dkey (stepFeedMark ts) := by
  obtain ⟨h1, ⟨td, htd, hktd⟩, h3⟩ := h
  have hkey : ∀ t : Task,
      ((if t.deps = [] ∧ t.status = "waiting"
        then { t with status := "running" } else t) : Task).key = t.key := by
    intro t
    by_cases hk : t.deps = [] ∧ t.status = "waiting" <;> simp [hk]
  have hfix : ∀ t : Task, t.key = dkey → (∀ u ∈ ts, u.key = dkey →
      g ∈ u.deps ∧ u.status = "waiting") → t ∈ ts →
      ((if t.deps = [] ∧ t.status = "waiting"
        then { t with status := "running" } else t) : Task) = t := by
    intro t hk hall ht
    have hne : t.deps ≠ [] := List.ne_nil_of_mem (hall t ht hk).1
    rw [if_neg (fun hc => hne hc.1)]
  refine ⟨?_, ?_, ?_⟩
  · intro u hu
    obtain ⟨t, ht, rfl⟩ := mem_map_form _ ts u hu
    rw [hkey t]
    exact h1 t ht
  · refine ⟨_, List.mem_map_of_mem _ htd, ?_⟩
    rw [hkey td]
    exact hktd
  · intro u hu hk
    obtain ⟨t, ht, rfl⟩ := mem_map_form _ ts u hu
    rw [hkey t] at hk
    rw [hfix t hk h3 ht]
    exact h3 t ht hk

theorem dkey_not_mem_stepFeedKeys (g dkey : String) (ts : List Task)
    (h : DanglingInv g dkey ts) : dkey ∉ stepFeedKeys ts := by
  intro hmem
  obtain ⟨t, ht, hkt⟩ := List.mem_map.mp hmem
  have ht2 := List.mem_filter.mp ht
  have hcond : t.deps = [] ∧ t.status = "waiting" := by simpa using ht2.2
  have := (h.2.2 t ht2.1 hkt).1
  rw [hcond.1] at this
  exact List.not_mem_nil g this

theorem stepFeedKeys_ne_g (g dkey : String) (ts : List Task)
    (h : DanglingInv g dkey ts) : ∀ x ∈ stepFeedKeys ts, x ≠ g := by
  intro x hmem
  obtain ⟨t, ht, hkt⟩ := List.mem_map.mp hmem
  rw [← hkt]
  exact h.1 t (List.mem_filter.mp ht).1

theorem schedLoop_dangling (outcome : String → Bool) (g dkey : String) :
    ∀ fuel ts q, countWaiting ts + q.length < fuel →
      DanglingInv g dkey ts → dkey ∉ q → (∀ x ∈ q, x ≠ g) →
      ∃ ts2, schedLoop false outcome fuel ts q = some (Except.ok ts2) ∧
        DanglingInv g dkey ts2 := by
  intro fuel
  induction fuel with
  | zero => intro ts q h; omega
  | succ n ih =>
    intro ts q h hinv hq hqg
    match q with
    | [] => exact ⟨ts, rfl, hinv⟩
    | k :: q2 =>
      have hkd : k ≠ dkey := fun he => hq (he ▸ List.mem_cons_self k q2)
      have hkg : k ≠ g := hqg k (List.mem_cons_self k q2)
      have hq2 : dkey ∉ q2 := fun he => hq (List.mem_cons_of_mem k he)
      have hq2g : ∀ x ∈ q2, x ≠ g := fun x hx => hqg x (List.mem_cons_of_mem k hx)
      by_cases hk : outcome k = true
      · have hinv2 : DanglingInv g dkey (setStatus (removeDepKey ts k) k "succeeded") :=
          danglingInv_setStatus g dkey k "succeeded" hkd _
            (danglingInv_removeDepKey g dkey k hkg ts hinv)
        have hinv3 := danglingInv_stepFeedMark g dkey _ hinv2
        have hqa : dkey ∉ q2 ++ stepFeedKeys (setStatus (removeDepKey ts k) k "succeeded") := by
          intro hmem
          rcases List.mem_append.mp hmem with hm | hm
          · exact hq2 hm
          · exact dkey_not_mem_stepFeedKeys g dkey _ hinv2 hm
        have hqga : ∀ x ∈ q2 ++ stepFeedKeys (setStatus (removeDepKey ts k) k "succeeded"),
            x ≠ g := by
          intro x hmem
          rcases List.mem_append.mp hmem with hm | hm
          · exact hq2g x hm
          · exact stepFeedKeys_ne_g g dkey _ hinv2 x hm
        have hm : countWaiting
            (stepFeedMark (setStatus (removeDepKey ts k) k "succeeded")) +
            (q2 ++ stepFeedKeys (setStatus (removeDepKey ts k) k "succeeded")).length
              < n := by
          have h1 := countWaiting_stepFeedMark
            (setStatus (removeDepKey ts k) k "succeeded")
          have h2 := countWaiting_setStatus_le (removeDepKey ts k) k "succeeded"
            (by decide)
          have h3 := countWaiting_removeDepKey ts k
          simp only [List.length_append, List.length_cons] at h ⊢
          omega
        obtain ⟨ts2, hts2, hinvf⟩ := ih _ _ hm hinv3 hqa hqga
        refine ⟨ts2, ?_, hinvf⟩
        rw [show schedLoop false outcome (n + 1) ts (k :: q2) =
          (if outcome k then
            schedLoop false outcome n
              (stepFeedMark (setStatus (removeDepKey ts k) k "succeeded"))
              (q2 ++ stepFeedKeys (setStatus (removeDepKey ts k) k "succeeded"))
          else
            schedLoop false outcome n (stepFeedMark (setStatus ts k "failed"))
              (q2 ++ stepFeedKeys (setStatus ts k "failed"))) from by
            simp [schedLoop]]
        rw [if_pos hk]
        exact hts2
      · have hinv2 : DanglingInv g dkey (setStatus ts k "failed") :=
          danglingInv_setStatus g dkey k "failed" hkd ts hinv
        have hinv3 := danglingInv_stepFeedMark g dkey _ hinv2
        have hqa : dkey ∉ q2 ++ stepFeedKeys (setStatus ts k "failed") := by
          intro hmem
          rcases List.mem_append.mp hmem with hm | hm
          · exact hq2 hm
          · exact dkey_not_mem_stepFeedKeys g dkey _ hinv2 hm
        have hqga : ∀ x ∈ q2 ++ stepFeedKeys (setStatus ts k "failed"), x ≠ g := by
          intro x hmem
          rcases List.mem_append.mp hmem with hm | hm
          · exact hq2g x hm
          · exact stepFeedKeys_ne_g g dkey _ hinv2 x hm
        have hm : countWaiting (stepFeedMark (setStatus ts k "failed")) +
            (q2 ++ stepFeedKeys (setStatus ts k "failed")).length < n := by
          have h1 := countWaiting_stepFeedMark (setStatus ts k "failed")
          have h2 := countWaiting_setStatus_le ts k "failed" (by decide)
          simp only [List.length_append, List.length_cons] at h ⊢
          omega
        obtain ⟨ts2, hts2, hinvf⟩ := ih _ _ hm hinv3 hqa hqga
        refine ⟨ts2, ?_, hinvf⟩
        rw [show schedLoop false outcome (n + 1) ts (k :: q2) =
          (if outcome k then
            schedLoop false outcome n
              (stepFeedMark (setStatus (removeDepKey ts k) k "succeeded"))
              (q2 ++ stepFeedKeys (setStatus (removeDepKey ts k) k "succeeded"))
          else
            schedLoop false outcome n (stepFeedMark (setStatus ts k "failed"))
              (q2 ++ stepFeedKeys (setStatus ts k "failed"))) from by
            simp [schedLoop]]
        rw [if_neg (by rw [show outcome k = false from by
          cases ho : outcome k
          · rfl
          · exact absurd ho hk]; exact Bool.false_ne_true)]
        exact hts2

/-- Claim C10 (confirmed, sequential semantics): if some task's dependency
list contains a key `g` that is not the key of any task, the scheduler
raises no error and still terminates (it returns a summary, never the
debug-mode `Except.error` and never fuel exhaustion), the task keyed by
that dangling dependency is never executed (it is still "waiting" at the
end), and the final summary counts it in the dependency-failure (blocked)
group and in neither the succeeded nor the failed group. -/
theorem dangling_dependency_blocked (specs : List TaskSpec)
    (outcome : String → Bool)
    (hnd : ((initTasks specs).map Task.key).Nodup)
    (g : String) (hg : ∀ t ∈ initTasks specs, t.key ≠ g)
    (d : Task) (hd : d ∈ initTasks specs) (hgd : g ∈ d.deps) :
    ∃ s : Summary, run_parallel_tasks false outcome specs = some (Except.ok s) ∧
      d.key ∈ s.blocked ∧ d.key ∉ s.succeeded ∧ d.key ∉ s.failed := by
  have hinv0 : DanglingInv g d.key (initTasks specs) := by
    refine ⟨hg, ⟨d, hd, rfl⟩, ?_⟩
    intro t ht hk
    have hte : t = d := eq_of_key_eq (initTasks specs) hnd t d ht hd (by rw [hk])
    rw [hte]
    exact ⟨hgd, status_initTasks specs d hd⟩
  have hinv1 := danglingInv_stepFeedMark g d.key _ hinv0
  have hq1 : d.key ∉ stepFeedKeys (initTasks specs) :=
    dkey_not_mem_stepFeedKeys g d.key _ hinv0
  have hq1g : ∀ x ∈ stepFeedKeys (initTasks specs), x ≠ g :=
    stepFeedKeys_ne_g g d.key _ hinv0
  have hfuel : countWaiting (stepFeedMark (initTasks specs)) +
      (stepFeedKeys (initTasks specs)).length < countWaiting (initTasks specs) + 1 := by
    have := countWaiting_stepFeedMark (initTasks specs)
    omega
  obtain ⟨ts2, hrun, hinvf⟩ :=
    schedLoop_dangling outcome g d.key _ _ _ hfuel hinv1 hq1 hq1g
  refine ⟨summary ts2, ?_, ?_, ?_, ?_⟩
  · show (match schedLoop false outcome (countWaiting (initTasks specs) + 1)
        (stepFeedMark (initTasks specs)) (stepFeedKeys (initTasks specs)) with
      | none => none
      | some (Except.error e) => some (Except.error e)
      | some (Except.ok ts) => some (Except.ok (summary ts)))
        = some (Except.ok (summary ts2))
    rw [hrun]
  · obtain ⟨u, hu, hku⟩ := hinvf.2.1
    have hw := (hinvf.2.2 u hu hku).2
    rw [← hku]
    exact mem_summary_blocked ts2 u hu hw
  · intro hmem
    obtain ⟨v, hv, hkv⟩ := List.mem_map.mp hmem
    have hv2 := List.mem_filter.mp hv
    have hvs : v.status = "succeeded" := by simpa using hv2.2
    have := (hinvf.2.2 v hv2.1 hkv).2
    rw [hvs] at this
    exact absurd this (by decide)
  · intro hmem
    obtain ⟨v, hv, hkv⟩ := List.mem_map.mp hmem
    have hv2 := List.mem_filter.mp hv
    have hvs : v.status = "failed" := by simpa using hv2.2
    have := (hinvf.2.2 v hv2.1 hkv).2
    rw [hvs] at this
    exact absurd this (by decide)

/-- Witness for `dangling_dependency_blocked`: a single task B whose
dependency list names the nonexistent task X. -/
theorem dangling_dependency_blocked_witness :
    ∃ s : Summary,
      run_parallel_tasks false (fun _ => true)
          [⟨"B", InflowField.list ["X"]⟩] = some (Except.ok s) ∧
        "B" ∈ s.blocked ∧ "B" ∉ s.succeeded ∧ "B" ∉ s.failed :=
  dangling_dependency_blocked [⟨"B", InflowField.list ["X"]⟩] (fun _ => true)
    (by decide) "X" (by decide) ⟨"B", ["X"], "waiting"⟩ (by decide) (by decide)

/-! ## Run-period resolution: `set_simulation_run_period` in `src/model.py`

Dates are embedded as integers (days); `self.args` and the on-disk /
network environment of the method are explicit records. -/

/-- The arguments consulted by `set_simulation_run_period`:
`overwrite_start_date`, `snapshot`, `snapshot_date`, `overwrite_end_date`,
`forecast`. -/
structure RunPeriodArgs where
  overwrite_start_date : Option Int
  snapshot : Bool
  snapshot_date : Option Int
  overwrite_end_date : Option Int
  forecast : Bool

/-- The environment of `set_simulation_run_period`: the forcing-data
extent returned by `metadata_from_forcing`, the snapshot dates present in
the `Results` directory, today's date, whether the lake has a
`forcing_forecast` parameter with its horizon in days, and the model's
reference date (epoch). -/
structure RunPeriodEnv where
  forcing_start : Int
  forcing_end : Int
  available_snapshots : List Int
  today : Int
  has_forcing_forecast : Bool
  forecast_days : Int
  reference_date : Int

/-- Lines 256-285 of `src/model.py`: clamp the start date to the reference
date, determine the end date (forcing end, optionally a forecast horizon
from today, optionally an explicit end override which must not exceed it),
and fail unless start < end.  Returns `(start_date, end_date, snapshot)`. -/
def run_period_finish (a : RunPeriodArgs) (e : RunPeriodEnv)
    (start0 : Int) (snap0 : Bool) : Except String (Int × Int × Bool) :=
  match a.overwrite_end_date with
  | some od =>
    if od > (if a.forecast ∧ e.has_forcing_forecast
        then e.today + e.forecast_days else e.forcing_end) then
      Except.error "Overwrite end date is outside of available forcing data"
    else if (if start0 < e.reference_date then e.reference_date else start0) ≥ od then
      Except.error "Start date cannot be after end date"
    else Except.ok
      ((if start0 < e.reference_date then e.reference_date else start0), od, snap0)
  | none =>
    if (if start0 < e.reference_date then e.reference_date else start0) ≥
        (if a.forecast ∧ e.has_forcing_forecast
          then e.today + e.forecast_days else e.forcing_end) then
      Except.error "Start date cannot be after end date"
    else Except.ok
      ((if start0 < e.reference_date then e.reference_date else start0),
        (if a.forecast ∧ e.has_forcing_forecast
          then e.today + e.forecast_days else e.forcing_end), snap0)

/-- Lines 223-254 of `src/model.py`: resolve the start date from, in
priority order, an explicit override (fatal if before the forcing data
start), a requested snapshot date (falling back to the forcing start if
that snapshot file is absent), the most recent available snapshot
(falling back to the forcing start if none exists), or the forcing start. -/
def set_simulation_run_period (a : RunPeriodArgs) (e : RunPeriodEnv) :
    Except String (Int × Int × Bool) :=
  match a.overwrite_start_date with
  | some d =>
    if d < e.forcing_start then
      Except.error "Overwrite start date is outside of available forcing data"
    else run_period_finish a e d false
  | none =>
    if a.snapshot then
      match a.snapshot_date with
      | some sd =>
        if sd ∈ e.available_snapshots then run_period_finish a e sd true
        else run_period_finish a e e.forcing_start false
      | none =>
        if e.available_snapshots = [] then run_period_finish a e e.forcing_start false
        else run_period_finish a e
          ((e.available_snapshots.insertionSort (· ≤ ·)).getLastD 0) true
    else run_period_finish a e e.forcing_start false

theorem run_period_finish_ok (a : RunPeriodArgs) (e : RunPeriodEnv)
    (start0 : Int) (snap0 : Bool) (s en : Int) (snap : Bool)
    (hok : run_period_finish a e start0 snap0 = Except.ok (s, en, snap)) :
    s < en ∧ e.reference_date ≤ s ∧ (start0 < e.reference_date → s = e.reference_date) ∧
      (e.reference_date ≤ start0 → s = start0) ∧ snap = snap0 := by
  unfold run_period_finish at hok
  have hS : e.reference_date ≤
        (if start0 < e.reference_date then e.reference_date else start0) ∧
      (start0 < e.reference_date →
        (if start0 < e.reference_date then e.reference_date else start0)
          = e.reference_date) ∧
      (e.reference_date ≤ start0 →
        (if start0 < e.reference_date then e.reference_date else start0) = start0) := by
    by_cases h : start0 < e.reference_date <;> simp [h]
    omega
  set S := (if start0 < e.reference_date then e.reference_date else start0) with hSdef
  set E := (if a.forecast ∧ e.has_forcing_forecast
    then e.today + e.forecast_days else e.forcing_end) with hEdef
  clear_value S E
  repeat' split at hok
  all_goals try exact Except.noConfusion hok
  all_goals injection hok with hok
  all_goals injection hok with h3 h4
  all_goals injection h4 with h4 h5
  all_goals subst h3
  all_goals subst h4
  all_goals subst h5
  all_goals exact ⟨by omega, hS.1, hS.2.1, hS.2.2, rfl⟩

/-- Counterexample to claim C9's exception clause: an explicit start-date
override (day 5) earlier than the reference epoch (day 10) but inside the
forcing data (which starts at day 0) is NOT a fatal error — run-period
resolution completes and silently clamps the start up to the epoch.  The
code's override check compares against the forcing-data start, not the
epoch. -/
theorem run_period_override_before_epoch_not_fatal :
    set_simulation_run_period
      ⟨some 5, false, none, none, false⟩
      ⟨0, 20, [], 0, false, 0, 10⟩ = Except.ok (10, 20, false) := rfl

/-- Claim C9 (amended): whenever `set_simulation_run_period` completes
without error, the resolved start date is strictly before the resolved
end date and at or after the model's reference epoch; a candidate start
earlier than the epoch — including an explicit override — is clamped up to
the epoch; the fatal case for an explicit override is violating the
forcing-data start (an override earlier than the forcing start never
completes), while an override at or after the forcing start but before
the epoch is clamped, not fatal. -/
theorem run_period_none_cases (snapArg : Bool) (snapDate : Option Int)
    (ovEnd : Option Int) (fc : Bool) (e : RunPeriodEnv) :
    ∃ st sn, set_simulation_run_period ⟨none, snapArg, snapDate, ovEnd, fc⟩ e =
      run_period_finish ⟨none, snapArg, snapDate, ovEnd, fc⟩ e st sn := by
  cases snapArg with
  | false => exact ⟨e.forcing_start, false, rfl⟩
  | true =>
    cases snapDate with
    | some sd =>
      by_cases hm : sd ∈ e.available_snapshots
      · refine ⟨sd, true, ?_⟩
        show (if sd ∈ e.available_snapshots then
            run_period_finish ⟨none, true, some sd, ovEnd, fc⟩ e sd true
          else run_period_finish ⟨none, true, some sd, ovEnd, fc⟩ e
            e.forcing_start false) = _
        rw [if_pos hm]
      · refine ⟨e.forcing_start, false, ?_⟩
        show (if sd ∈ e.available_snapshots then
            run_period_finish ⟨none, true, some sd, ovEnd, fc⟩ e sd true
          else run_period_finish ⟨none, true, some sd, ovEnd, fc⟩ e
            e.forcing_start false) = _
        rw [if_neg hm]
    | none =>
      by_cases hm : e.available_snapshots = []
      · refine ⟨e.forcing_start, false, ?_⟩
        show (if e.available_snapshots = [] then
            run_period_finish ⟨none, true, none, ovEnd, fc⟩ e e.forcing_start false
          else run_period_finish ⟨none, true, none, ovEnd, fc⟩ e
            ((e.available_snapshots.insertionSort (· ≤ ·)).getLastD 0) true) = _
        rw [if_pos hm]
      · refine ⟨(e.available_snapshots.insertionSort (· ≤ ·)).getLastD 0, true, ?_⟩
        show (if e.available_snapshots = [] then
            run_period_finish ⟨none, true, none, ovEnd, fc⟩ e e.forcing_start false
          else run_period_finish ⟨none, true, none, ovEnd, fc⟩ e
            ((e.available_snapshots.insertionSort (· ≤ ·)).getLastD 0) true) = _
        rw [if_neg hm]

theorem run_period_resolution (a : RunPeriodArgs) (e : RunPeriodEnv)
    (s en : Int) (snap : Bool)
    (hok : set_simulation_run_period a e = Except.ok (s, en, snap)) :
    s < en ∧ e.reference_date ≤ s ∧
      (∀ d, a.overwrite_start_date = some d → e.forcing_start ≤ d →
        d < e.reference_date → s = e.reference_date) ∧
      (∀ d, a.overwrite_start_date = some d → ¬ d < e.forcing_start) := by
  obtain ⟨ov, snapArg, snapDate, ovEnd, fc⟩ := a
  cases ov with
  | some d =>
    rw [show set_simulation_run_period ⟨some d, snapArg, snapDate, ovEnd, fc⟩ e =
        (if d < e.forcing_start then
          Except.error "Overwrite start date is outside of available forcing data"
        else run_period_finish ⟨some d, snapArg, snapDate, ovEnd, fc⟩ e d false)
        from rfl] at hok
    by_cases hlt : d < e.forcing_start
    · rw [if_pos hlt] at hok
      exact Except.noConfusion hok
    · rw [if_neg hlt] at hok
      obtain ⟨h1, h2, h3, h4, h5⟩ :=
        run_period_finish_ok ⟨some d, snapArg, snapDate, ovEnd, fc⟩ e d false
          s en snap hok
      refine ⟨h1, h2, ?_, ?_⟩
      · intro d2 hd2 hge hltref
        have hd2' : some d = some d2 := hd2
        injection hd2' with hd2'
        subst hd2'
        exact h3 hltref
      · intro d2 hd2
        have hd2' : some d = some d2 := hd2
        injection hd2' with hd2'
        subst hd2'
        exact hlt
  | none =>
    obtain ⟨st, sn, heq⟩ := run_period_none_cases snapArg snapDate ovEnd fc e
    rw [heq] at hok
    obtain ⟨h1, h2, _, _, _⟩ :=
      run_period_finish_ok ⟨none, snapArg, snapDate, ovEnd, fc⟩ e st sn s en snap hok
    refine ⟨h1, h2, ?_, ?_⟩
    · intro d hd
      exact Option.noConfusion (show (none : Option Int) = some d from hd)
    · intro d hd
      exact Option.noConfusion (show (none : Option Int) = some d from hd)

/-- Witness for `run_period_resolution` at the clamped-override input. -/
theorem run_period_resolution_witness :
    set_simulation_run_period
        ⟨some 5, false, none, none, false⟩ ⟨0, 20, [], 0, false, 0, 10⟩
        = Except.ok (10, 20, false) ∧
      ((10 : Int) < 20 ∧
        (RunPeriodEnv.mk 0 20 [] 0 false 0 10).reference_date ≤ 10 ∧
        (∀ d, (RunPeriodArgs.mk (some 5) false none none false).overwrite_start_date
            = some d →
          (RunPeriodEnv.mk 0 20 [] 0 false 0 10).forcing_start ≤ d →
          d < (RunPeriodEnv.mk 0 20 [] 0 false 0 10).reference_date →
          (10 : Int) = (RunPeriodEnv.mk 0 20 [] 0 false 0 10).reference_date) ∧
        (∀ d, (RunPeriodArgs.mk (some 5) false none none false).overwrite_start_date
            = some d →
          ¬ d < (RunPeriodEnv.mk 0 20 [] 0 false 0 10).forcing_start)) :=
  ⟨rfl,
    run_period_resolution ⟨some 5, false, none, none, false⟩
      ⟨0, 20, [], 0, false, 0, 10⟩ 10 20 false rfl⟩

/-! ## Climatological fill and its errors: `fill_forcing_data`
(src/functions/forcing.py 282-335), `fill_inflow_data`
(src/functions/inflow.py 67-128) and `fill_day_of_year`
(src/functions/general.py 239-246)

Values are `none` for NaN; simstrat times are rationals (days since the
reference date).  The on-disk previous-run files are explicit `Option`
parameters (`none` = file absent).  The calendar function `dayofyear`
(pandas `.dt.dayofyear` of `reference_date + t days`) is a parameter; the
claims under verification do not depend on its values. -/

/-- Arithmetic mean of a list of rationals (`0` on the empty list, where
pandas/numpy would produce NaN). -/
def listMean (l : List ℚ) : ℚ := l.sum / (l.length : ℚ)

/-- `np.nanmean`: the mean of the non-missing values. -/
def nanmean (l : List (Option ℚ)) : ℚ := listMean (l.filterMap id)

/-- `data[nan_values] = mean`: replace every missing entry by `v`. -/
def fillWith (v : ℚ) (data : List (Option ℚ)) : List (Option ℚ) :=
  data.map (fun x => match x with | none => some v | some y => some y)

/-- `fill_day_of_year(time, data, time_full, data_full, reference_date)`:
build a day-of-year → mean table from the full history (NaNs skipped by
the pandas groupby mean) and substitute the entry for each missing value's
day of year. -/
def fill_day_of_year (dayofyear : ℚ → Nat) (time : List ℚ)
    (data : List (Option ℚ)) (time_full : List ℚ)
    (data_full : List (Option ℚ)) : List (Option ℚ) :=
  let doyMean := fun (d : Nat) =>
    listMean ((time_full.zip data_full).filterMap
      (fun p => if dayofyear p.1 = d then p.2 else none))
  (time.zip data).map (fun p =>
    match p.2 with
    | some v => some v
    | none => some (doyMean (dayofyear p.1)))

/-- The two `ValueError`s of the fill stages, distinguished by their
message: the spec's MissingHistoryError ("Unable to locate ... from
previous run") and the unimplemented-fill-mode error. -/
inductive FillError where
  | missingHistory (msg : String) : FillError
  | fillNotImplemented (msg : String) : FillError
deriving DecidableEq

/-- One entry of the `forcing_data` dict: column name, current-window
values, and the optional `"fill"` attribute (`none`: no "fill" key;
`some none`: `fill = None`; `some (some m)`: fill mode `m`). -/
structure ForcingColumn where
  key : String
  data : List (Option ℚ)
  fill : Option (Option String)

/-- The per-column loop of a fill stage: stop at the first raising column
(Python raises out of the loop), otherwise collect the updated columns. -/
def runFillSteps {α : Type} (step : α → Except FillError α) :
    List α → Except FillError (List α)
  | [] => Except.ok []
  | c :: rest =>
    match step c with
    | Except.error e => Except.error e
    | Except.ok c2 =>
      match runFillSteps step rest with
      | Except.error e => Except.error e
      | Except.ok rest2 => Except.ok (c2 :: rest2)

/-- The body of the fill loop of `fill_forcing_data` (lines 306-334) for
one column: nothing to do without missing values or without a "fill" key
or with `fill = None`; "mean" fills with the (extended) nanmean; "doy"
fills by day-of-year climatology over the (extended) history; any other
mode raises. -/
def fillForcingColumn (dayofyear : ℚ → Nat) (timeExt : List ℚ)
    (ext : ForcingColumn → List (Option ℚ)) (time : List ℚ)
    (c : ForcingColumn) : Except FillError ForcingColumn :=
  if c.data.any (fun x => x.isNone) then
    match c.fill with
    | none => Except.ok c
    | some none => Except.ok c
    | some (some m) =>
      if m = "mean" then
        Except.ok { c with data := fillWith (nanmean (ext c)) c.data }
      else if m = "doy" then
        Except.ok
          { c with data := fill_day_of_year dayofyear time c.data timeExt (ext c) }
      else Except.error (FillError.fillNotImplemented m)
  else Except.ok c

/-- `fill_forcing_data(forcing_data, simulation_dir, snapshot,
reference_date, log)`: if no column needs filling, return unchanged; in
continuation (snapshot) mode the previous run's `Forcing.dat` is required
(`prev = none` models a missing file and raises the missing-history
error), and every column's statistics are computed over the concatenation
of the previous values (times before the current window) with the current
window. -/
def fill_forcing_data (dayofyear : ℚ → Nat) (time : List ℚ)
    (columns : List ForcingColumn) (snapshot : Bool)
    (prev : Option (String → List ℚ)) : Except FillError (List ForcingColumn) :=
  if columns.any (fun c => c.data.any (fun x => x.isNone)) then
    match snapshot, prev with
    | true, none => Except.error (FillError.missingHistory
        "Unable to locate Forcing.dat files from previous run, unable to fill nan values. Please remove the snapshot and run the full simulation.")
    | true, some f =>
      runFillSteps (fillForcingColumn dayofyear (f "Time" ++ time)
        (fun c => (f c.key).map some ++ c.data) time) columns
    | false, _ =>
      runFillSteps (fillForcingColumn dayofyear time (fun c => c.data) time)
        columns
  else Except.ok columns

/-- The inflow quantities filled by `fill_inflow_data`. -/
inductive InflowKey where
  | Q : InflowKey
  | T : InflowKey
  | S : InflowKey
deriving DecidableEq

/-- A parsed `{Q,T,S}in.dat` from the previous run, restricted to times
before the current window: its time column and, per deep-inflow index,
its value column. -/
structure PrevInflow where
  ptime : List ℚ
  pdata : Nat → List ℚ

/-- One series of one deep inflow: the inflow's index, the quantity, and
the current-window values. -/
structure InflowColumn where
  inflowIndex : Nat
  key : InflowKey
  data : List (Option ℚ)

/-- The body of the fill loop of `fill_inflow_data` (lines 95-127) for one
deep-inflow series, mirroring `fillForcingColumn` with the per-quantity
`inflow_parameters[key]["fill"]` attribute. -/
def fillInflowColumn (dayofyear : ℚ → Nat) (timeExt : List ℚ)
    (ext : InflowColumn → List (Option ℚ)) (time : List ℚ)
    (params : InflowKey → Option (Option String))
    (c : InflowColumn) : Except FillError InflowColumn :=
  if c.data.any (fun x => x.isNone) then
    match params c.key with
    | none => Except.ok c
    | some none => Except.ok c
    | some (some m) =>
      if m = "mean" then
        Except.ok { c with data := fillWith (nanmean (ext c)) c.data }
      else if m = "doy" then
        Except.ok
          { c with data := fill_day_of_year dayofyear time c.data timeExt (ext c) }
      else Except.error (FillError.fillNotImplemented m)
  else Except.ok c

/-- `fill_inflow_data(inflow_data, inflow_parameters, simulation_dir,
snapshot, reference_date, log)`: if no deep-inflow series needs filling,
return unchanged; in continuation (snapshot) mode all three files
`Qin.dat`, `Tin.dat`, `Sin.dat` from the previous run are required (any
`prev k = none` models a missing file and raises the missing-history
error); each series' statistics are computed over the concatenation of the
previous values with the current window. -/
def fill_inflow_data (dayofyear : ℚ → Nat) (time : List ℚ)
    (cols : List InflowColumn) (params : InflowKey → Option (Option String))
    (snapshot : Bool) (prev : InflowKey → Option PrevInflow) :
    Except FillError (List InflowColumn) :=
  if cols.any (fun c => c.data.any (fun x => x.isNone)) then
    if snapshot then
      if (prev InflowKey.Q).isNone ∨ (prev InflowKey.T).isNone ∨
          (prev InflowKey.S).isNone then
        Except.error (FillError.missingHistory
          "Unable to locate in.dat from previous run, unable to fill nan values. Please remove the snapshot and run the full simulation.")
      else
        runFillSteps (fillInflowColumn dayofyear
          ((match prev InflowKey.S with
            | some p => p.ptime
            | none => []) ++ time)
          (fun c => (match prev c.key with
            | some p => (p.pdata c.inflowIndex).map some
            | none => []) ++ c.data) time params) cols
    else
      runFillSteps (fillInflowColumn dayofyear time (fun c => c.data) time params)
        cols
  else Except.ok cols

theorem runFillSteps_no_missing {α : Type} (step : α → Except FillError α)
    (h : ∀ a m, step a ≠ Except.error (FillError.missingHistory m)) :
    ∀ l m, runFillSteps step l ≠ Except.error (FillError.missingHistory m) := by
  intro l
  induction l with
  | nil => intro m hc; exact Except.noConfusion hc
  | cons c rest ih =>
    intro m hc
    unfold runFillSteps at hc
    match hs : step c with
    | Except.error e =>
      rw [hs] at hc
      injection hc with hc
      exact h c m (by rw [hs, hc])
    | Except.ok c2 =>
      rw [hs] at hc
      match hr : runFillSteps step rest with
      | Except.error e =>
        rw [hr] at hc
        injection hc with hc
        exact ih m (by rw [hr, hc])
      | Except.ok rest2 =>
        rw [hr] at hc
        exact Except.noConfusion hc

theorem fillForcingColumn_no_missing (dayofyear : ℚ → Nat) (timeExt : List ℚ)
    (ext : ForcingColumn → List (Option ℚ)) (time : List ℚ)
    (c : ForcingColumn) (m : String) :
    fillForcingColumn dayofyear timeExt ext time c ≠
      Except.error (FillError.missingHistory m) := by
  intro hc
  unfold fillForcingColumn at hc
  repeat' split at hc
  all_goals
    first
      | exact Except.noConfusion hc
      | (injection hc with hc; exact FillError.noConfusion hc)

theorem fillInflowColumn_no_missing (dayofyear : ℚ → Nat) (timeExt : List ℚ)
    (ext : InflowColumn → List (Option ℚ)) (time : List ℚ)
    (params : InflowKey → Option (Option String)) (c : InflowColumn) (m : String) :
    fillInflowColumn dayofyear timeExt ext time params c ≠
      Except.error (FillError.missingHistory m) := by
  intro hc
  unfold fillInflowColumn at hc
  repeat' split at hc
  all_goals
    first
      | exact Except.noConfusion hc
      | (injection hc with hc; exact FillError.noConfusion hc)

/-- Claim C8 (confirmed): a fill stage raises the missing-history error if
and only if it runs in continuation (snapshot) mode, at least one value
still needs filling, and the previous run's output file cannot be located
on disk (`Forcing.dat` for the forcing stage; any of `Qin.dat`, `Tin.dat`,
`Sin.dat` for the inflow stage).  In particular no missing-history error
is ever raised in non-continuation mode. -/
theorem missing_history_error_iff (dayofyear : ℚ → Nat) (time : List ℚ)
    (columns : List ForcingColumn) (snapshot : Bool)
    (prevF : Option (String → List ℚ)) (icols : List InflowColumn)
    (params : InflowKey → Option (Option String))
    (prevI : InflowKey → Option PrevInflow) :
    ((∃ msg, fill_forcing_data dayofyear time columns snapshot prevF =
        Except.error (FillError.missingHistory msg)) ↔
      (snapshot = true ∧ prevF = none ∧
        columns.any (fun c => c.data.any (fun x => x.isNone)) = true)) ∧
    ((∃ msg, fill_inflow_data dayofyear time icols params snapshot prevI =
        Except.error (FillError.missingHistory msg)) ↔
      (snapshot = true ∧
        ((prevI InflowKey.Q).isNone ∨ (prevI InflowKey.T).isNone ∨
          (prevI InflowKey.S).isNone) ∧
        icols.any (fun c => c.data.any (fun x => x.isNone)) = true)) := by
  constructor
  · by_cases hfr : columns.any (fun c => c.data.any (fun x => x.isNone)) = true
    · cases snapshot with
      | true =>
        cases prevF with
        | none =>
          constructor
          · intro _
            exact ⟨rfl, rfl, hfr⟩
          · intro _
            refine ⟨"Unable to locate Forcing.dat files from previous run, unable to fill nan values. Please remove the snapshot and run the full simulation.", ?_⟩
            show (if columns.any (fun c => c.data.any (fun x => x.isNone)) then
              Except.error (FillError.missingHistory
                "Unable to locate Forcing.dat files from previous run, unable to fill nan values. Please remove the snapshot and run the full simulation.")
              else Except.ok columns) = _
            rw [if_pos hfr]
        | some f =>
          constructor
          · rintro ⟨msg, hmsg⟩
            exfalso
            have heq : fill_forcing_data dayofyear time columns true (some f) =
                (if columns.any (fun c => c.data.any (fun x => x.isNone)) then
                  runFillSteps (fillForcingColumn dayofyear (f "Time" ++ time)
                    (fun c => (f c.key).map some ++ c.data) time) columns
                else Except.ok columns) := rfl
            rw [heq, if_pos hfr] at hmsg
            exact runFillSteps_no_missing _
              (fun a m => fillForcingColumn_no_missing dayofyear _ _ time a m)
              columns msg hmsg
          · rintro ⟨_, hpf, _⟩
            exact Option.noConfusion hpf
      | false =>
        constructor
        · rintro ⟨msg, hmsg⟩
          exfalso
          have heq : fill_forcing_data dayofyear time columns false prevF =
              (if columns.any (fun c => c.data.any (fun x => x.isNone)) then
                runFillSteps (fillForcingColumn dayofyear time
                  (fun c => c.data) time) columns
              else Except.ok columns) := by
            cases prevF <;> rfl
          rw [heq, if_pos hfr] at hmsg
          exact runFillSteps_no_missing _
            (fun a m => fillForcingColumn_no_missing dayofyear _ _ time a m)
            columns msg hmsg
        · rintro ⟨hsn, _, _⟩
          exact Bool.noConfusion hsn
    · constructor
      · rintro ⟨msg, hmsg⟩
        exfalso
        unfold fill_forcing_data at hmsg
        rw [if_neg hfr] at hmsg
        exact Except.noConfusion hmsg
      · rintro ⟨_, _, hfr2⟩
        exact absurd hfr2 hfr
  · by_cases hfr : icols.any (fun c => c.data.any (fun x => x.isNone)) = true
    · cases snapshot with
      | true =>
        by_cases hmiss : (prevI InflowKey.Q).isNone ∨ (prevI InflowKey.T).isNone ∨
            (prevI InflowKey.S).isNone
        · constructor
          · intro _
            exact ⟨rfl, hmiss, hfr⟩
          · intro _
            refine ⟨"Unable to locate in.dat from previous run, unable to fill nan values. Please remove the snapshot and run the full simulation.", ?_⟩
            unfold fill_inflow_data
            rw [if_pos hfr, if_pos rfl, if_pos hmiss]
        · constructor
          · rintro ⟨msg, hmsg⟩
            exfalso
            unfold fill_inflow_data at hmsg
            rw [if_pos hfr, if_pos rfl, if_neg hmiss] at hmsg
            exact runFillSteps_no_missing _
              (fun a m => fillInflowColumn_no_missing dayofyear _ _ time params a m)
              icols msg hmsg
          · rintro ⟨_, hm, _⟩
            exact absurd hm hmiss
      | false =>
        constructor
        · rintro ⟨msg, hmsg⟩
          exfalso
          unfold fill_inflow_data at hmsg
          rw [if_pos hfr] at hmsg
          have hfalse : ¬ ((false : Bool) = true) := Bool.false_ne_true
          rw [if_neg hfalse] at hmsg
          exact runFillSteps_no_missing _
            (fun a m => fillInflowColumn_no_missing dayofyear _ _ time params a m)
            icols msg hmsg
        · rintro ⟨hsn, _, _⟩
          exact Bool.noConfusion hsn
    · constructor
      · rintro ⟨msg, hmsg⟩
        exfalso
        unfold fill_inflow_data at hmsg
        rw [if_neg hfr] at hmsg
        exact Except.noConfusion hmsg
      · rintro ⟨_, _, hfr2⟩
        exact absurd hfr2 hfr

/-! ## Source-reconciler rebasing: `adjust_data_to_mean_and_std`
(src/functions/general.py 196-204), over the reals

`np.nanmean` / `np.nanstd` over a series with no missing values are the
ordinary population mean and standard deviation; the NaN guard of the code
(`isnan(mean) or isnan(std)`) corresponds to the empty list here. -/

/-- Population mean, `np.nanmean` on a NaN-free array. -/
noncomputable def rmean (l : List ℝ) : ℝ := l.sum / (l.length : ℝ)

/-- Population variance. -/
noncomputable def rvariance (l : List ℝ) : ℝ :=
  ((l.map (fun x => (x - rmean l) ^ 2)).sum) / (l.length : ℝ)

/-- Population standard deviation, `np.nanstd` on a NaN-free array. -/
noncomputable def rstd (l : List ℝ) : ℝ := Real.sqrt (rvariance l)

/-- `adjust_data_to_mean_and_std(arr, std, mean)`: rebase `arr` via
`(arr - mean(arr)) / std(arr) * std + mean`, unless `arr`'s own mean or
standard deviation is NaN (empty array) or its standard deviation is
zero, in which case `arr` is returned unmodified ("Forcing data not
adjusted"). -/
noncomputable def adjust_data_to_mean_and_std (arr : List ℝ) (std mean : ℝ) :
    List ℝ :=
  if arr = [] ∨ rstd arr = 0 then arr
  else arr.map (fun x => (x - rmean arr) / rstd arr * std + mean)

theorem sum_map_affine (a b : ℝ) (l : List ℝ) :
    ((l.map (fun x => a * x + b)).sum) = a * l.sum + b * (l.length : ℝ) := by
  induction l with
  | nil => simp
  | cons x t ih =>
    simp only [List.map_cons, List.sum_cons, ih, List.length_cons]
    push_cast
    ring

theorem sum_map_mul (c : ℝ) (f : ℝ → ℝ) (l : List ℝ) :
    (l.map (fun x => c * f x)).sum = c * (l.map f).sum := by
  induction l with
  | nil => simp
  | cons x t ih =>
    simp only [List.map_cons, List.sum_cons, ih]
    ring

theorem length_cast_ne_zero (l : List ℝ) (hl : l ≠ []) : (l.length : ℝ) ≠ 0 := by
  have : 0 < l.length := List.length_pos.mpr hl
  exact_mod_cast Nat.pos_iff_ne_zero.mp this

theorem rmean_map_affine (a b : ℝ) (l : List ℝ) (hl : l ≠ []) :
    rmean (l.map (fun x => a * x + b)) = a * rmean l + b := by
  have hlen := length_cast_ne_zero l hl
  unfold rmean
  rw [List.length_map, sum_map_affine]
  field_simp

theorem rvariance_map_affine (a b : ℝ) (l : List ℝ) (hl : l ≠ []) :
    rvariance (l.map (fun x => a * x + b)) = a ^ 2 * rvariance l := by
  unfold rvariance
  rw [List.length_map, rmean_map_affine a b l hl, List.map_map]
  have hcomp : ((fun x => (x - (a * rmean l + b)) ^ 2) ∘ (fun x => a * x + b)) =
      (fun x => a ^ 2 * (x - rmean l) ^ 2) := by
    funext x
    simp only [Function.comp]
    ring
  rw [hcomp, sum_map_mul (a ^ 2) (fun x => (x - rmean l) ^ 2) l, mul_div_assoc]

theorem rstd_map_affine (a b : ℝ) (l : List ℝ) (hl : l ≠ []) :
    rstd (l.map (fun x => a * x + b)) = |a| * rstd l := by
  unfold rstd
  rw [rvariance_map_affine a b l hl, Real.sqrt_mul (sq_nonneg a),
    Real.sqrt_sq_eq_abs]

/-- Claim C6 (amended): rebasing a fallback that is a non-degenerate
linear transform `x ↦ a·x + b` (`a ≠ 0`) of the primary, via
`adjust_data_to_mean_and_std` with the primary's standard deviation and
mean, reproduces the primary's mean and standard deviation exactly —
provided the primary is nonempty and non-constant over the region
(`rstd p ≠ 0`); with a constant primary the fallback's standard deviation
is zero, the guard returns the fallback unmodified, and the statistics are
not reproduced. -/
theorem adjust_linear_fallback (p : List ℝ) (a b : ℝ) (hp : p ≠ [])
    (ha : a ≠ 0) (hs : rstd p ≠ 0) :
    rmean (adjust_data_to_mean_and_std (p.map (fun x => a * x + b))
        (rstd p) (rmean p)) = rmean p ∧
    rstd (adjust_data_to_mean_and_std (p.map (fun x => a * x + b))
        (rstd p) (rmean p)) = rstd p := by
  have hfne : p.map (fun x => a * x + b) ≠ [] := by
    simpa using hp
  have hmf : rmean (p.map (fun x => a * x + b)) = a * rmean p + b :=
    rmean_map_affine a b p hp
  have hsf : rstd (p.map (fun x => a * x + b)) = |a| * rstd p :=
    rstd_map_affine a b p hp
  have habs : |a| ≠ 0 := abs_ne_zero.mpr ha
  have hsfne : rstd (p.map (fun x => a * x + b)) ≠ 0 := by
    rw [hsf]
    exact mul_ne_zero habs hs
  have hguard : ¬ (p.map (fun x => a * x + b) = [] ∨
      rstd (p.map (fun x => a * x + b)) = 0) := by
    push_neg
    exact ⟨hfne, hsfne⟩
  have hadj : adjust_data_to_mean_and_std (p.map (fun x => a * x + b))
      (rstd p) (rmean p) =
      p.map (fun x => (a / |a|) * x + (rmean p - (a / |a|) * rmean p)) := by
    unfold adjust_data_to_mean_and_std
    rw [if_neg hguard, List.map_map]
    apply List.map_congr_left
    intro x hx
    simp only [Function.comp]
    rw [hmf, hsf]
    field_simp
    ring
  constructor
  · rw [hadj, rmean_map_affine _ _ p hp]
    ring
  · rw [hadj, rstd_map_affine _ _ p hp]
    have h1 : abs (a / abs a) = 1 := by
      rw [abs_div, abs_abs]
      exact div_self habs
    rw [h1, one_mul]

/-- Witness for `adjust_linear_fallback`: primary `[0, 2]`, fallback
`2·x + 1` of it. -/
theorem adjust_linear_fallback_witness :
    (([0, 2] : List ℝ) ≠ [] ∧ (2 : ℝ) ≠ 0 ∧ rstd ([0, 2] : List ℝ) ≠ 0) ∧
      (rmean (adjust_data_to_mean_and_std
          (([0, 2] : List ℝ).map (fun x => 2 * x + 1))
          (rstd [0, 2]) (rmean [0, 2])) = rmean ([0, 2] : List ℝ) ∧
        rstd (adjust_data_to_mean_and_std
          (([0, 2] : List ℝ).map (fun x => 2 * x + 1))
          (rstd [0, 2]) (rmean [0, 2])) = rstd ([0, 2] : List ℝ)) := by
  have hm : rmean ([0, 2] : List ℝ) = 1 := by
    norm_num [rmean, List.sum_cons, List.sum_nil]
  have hv : rvariance ([0, 2] : List ℝ) = 1 := by
    norm_num [rvariance, hm, List.map_cons, List.map_nil, List.sum_cons,
      List.sum_nil]
  have hsval : rstd ([0, 2] : List ℝ) = 1 := by
    rw [rstd, hv, Real.sqrt_one]
  have hs : rstd ([0, 2] : List ℝ) ≠ 0 := by
    rw [hsval]
    norm_num
  exact ⟨⟨by simp, by norm_num, hs⟩,
    adjust_linear_fallback [0, 2] 2 1 (by simp) (by norm_num) hs⟩

/-- Counterexample to claim C6 as stated: over a constant primary `[1, 1]`
the fallback `[2, 2] = 2·primary` is a non-degenerate linear transform
(scale 2 ≠ 0), yet its own standard deviation is zero, so
`adjust_data_to_mean_and_std` returns it unmodified and its mean (2) does
not equal the primary's mean (1). -/
theorem adjust_constant_primary_counterexample :
    ([2, 2] : List ℝ) = ([1, 1] : List ℝ).map (fun x => 2 * x + 0) ∧
      (2 : ℝ) ≠ 0 ∧
      rmean (adjust_data_to_mean_and_std ([2, 2] : List ℝ)
        (rstd [1, 1]) (rmean [1, 1])) ≠ rmean ([1, 1] : List ℝ) := by
  refine ⟨by norm_num, by norm_num, ?_⟩
  have hm2 : rmean ([2, 2] : List ℝ) = 2 := by
    norm_num [rmean, List.sum_cons, List.sum_nil]
  have hv : rvariance ([2, 2] : List ℝ) = 0 := by
    norm_num [rvariance, hm2, List.map_cons, List.map_nil, List.sum_cons,
      List.sum_nil]
  have hstd : rstd ([2, 2] : List ℝ) = 0 := by
    rw [rstd, hv, Real.sqrt_zero]
  have hadj : adjust_data_to_mean_and_std ([2, 2] : List ℝ)
      (rstd [1, 1]) (rmean [1, 1]) = [2, 2] := by
    unfold adjust_data_to_mean_and_std
    rw [if_pos (Or.inr hstd)]
  rw [hadj, hm2]
  have h1 : rmean ([1, 1] : List ℝ) = 1 := by
    norm_num [rmean, List.sum_cons, List.sum_nil]
  rw [h1]
  norm_num

/-! ## Interpolator: `interpolate_timeseries` (src/functions/general.py
222-236)

`data` entries are `none` for NaN.  `non_nan_indices` is computed once; the
loop visits each pair of consecutive non-NaN indices `(s, e)` and, when
`time[e] - time[s] ≤ max_gap_size`, replaces every NaN strictly between
them by `np.interp` against the two bounding points — which on a run
bounded by exactly two known points is the two-point linear interpolation
`interpPoint`.  A `none` `max_gap_size` defaults to `time[-1] - time[0]`. -/

/-- Total access into the value list (`none` beyond the end). -/
def vAt (d : List (Option ℚ)) (j : Nat) : Option ℚ := d.getD j none

/-- Total access into the time list (`0` beyond the end). -/
def tAt (time : List ℚ) (j : Nat) : ℚ := time.getD j 0

/-- Two-point linear interpolation (`np.interp` between the two bounding
known points of a NaN run). -/
def interpPoint (ts te vs ve t : ℚ) : ℚ := vs + (t - ts) / (te - ts) * (ve - vs)

/-- `np.arange(len(data))[~np.isnan(data)]`. -/
def nonNanIndices (data : List (Option ℚ)) : List Nat :=
  (List.range data.length).filter (fun i => (data.getD i none).isSome)

/-- One iteration of the interpolation loop for the consecutive non-NaN
index pair `(s, e)`: if the time distance is within the gap bound, fill
every NaN strictly between them by linear interpolation. -/
def fillPair (time : List ℚ) (mg : ℚ) (d : List (Option ℚ)) (s e : Nat) :
    List (Option ℚ) :=
  if tAt time e - tAt time s ≤ mg then
    d.mapIdx (fun j v =>
      if s < j ∧ j < e ∧ v = none then
        some (interpPoint (tAt time s) (tAt time e)
          ((vAt d s).getD 0) ((vAt d e).getD 0) (tAt time j))
      else v)
  else d

/-- `interpolate_timeseries(time, data, max_gap_size)`. -/
def interpolate_timeseries (time : List ℚ) (data : List (Option ℚ))
    (max_gap_size : Option ℚ) : List (Option ℚ) :=
  let mg := max_gap_size.getD (time.getLastD 0 - time.headD 0)
  let nni := nonNanIndices data
  (nni.zip nni.tail).foldl (fun d p => fillPair time mg d p.1 p.2) data

theorem vAt_eq_get (d : List (Option ℚ)) (j : Nat) (h : j < d.length) :
    vAt d j = d.get ⟨j, h⟩ := by
  simp [vAt, List.getD_eq_getElem?_getD, List.getElem?_eq_getElem h]

theorem vAt_eq_none_of_ge (d : List (Option ℚ)) (j : Nat) (h : d.length ≤ j) :
    vAt d j = none := by
  simp [vAt, List.getD_eq_getElem?_getD, List.getElem?_eq_none h]

theorem length_fillPair (time : List ℚ) (mg : ℚ) (d : List (Option ℚ))
    (s e : Nat) : (fillPair time mg d s e).length = d.length := by
  unfold fillPair
  split
  · simp [List.length_mapIdx]
  · rfl

theorem vAt_fillPair_outside (time : List ℚ) (mg : ℚ) (d : List (Option ℚ))
    (s e j : Nat) (h : ¬ (s < j ∧ j < e)) :
    vAt (fillPair time mg d s e) j = vAt d j := by
  unfold fillPair
  split
  · by_cases hj : j < d.length
    · rw [vAt_eq_get _ j (by simp [List.length_mapIdx, hj]),
        vAt_eq_get d j hj, List.get_mapIdx]
      rw [if_neg]
      rintro ⟨h1, h2, _⟩
      exact h ⟨h1, h2⟩
    · rw [vAt_eq_none_of_ge _ j (by simp [List.length_mapIdx]; omega),
        vAt_eq_none_of_ge d j (by omega)]
  · rfl

theorem vAt_fillPair_some (time : List ℚ) (mg : ℚ) (d : List (Option ℚ))
    (s e j : Nat) (x : ℚ) (h : vAt d j = some x) :
    vAt (fillPair time mg d s e) j = some x := by
  unfold fillPair
  split
  · by_cases hj : j < d.length
    · rw [vAt_eq_get _ j (by simp [List.length_mapIdx, hj]), List.get_mapIdx]
      rw [vAt_eq_get d j hj] at h
      rw [if_neg]
      · rw [← h]
      · rintro ⟨_, _, h3⟩
        rw [h] at h3
        exact Option.noConfusion h3
    · rw [vAt_eq_none_of_ge d j (by omega)] at h
      exact Option.noConfusion h
  · exact h

theorem vAt_fillPair_inside (time : List ℚ) (mg : ℚ) (d : List (Option ℚ))
    (s e j : Nat) (hj : j < d.length) (h1 : s < j) (h2 : j < e)
    (hnone : vAt d j = none) :
    vAt (fillPair time mg d s e) j =
      if tAt time e - tAt time s ≤ mg then
        some (interpPoint (tAt time s) (tAt time e)
          ((vAt d s).getD 0) ((vAt d e).getD 0) (tAt time j))
      else none := by
  unfold fillPair
  split
  · rw [vAt_eq_get _ j (by simp [List.length_mapIdx, hj]), List.get_mapIdx]
    rw [vAt_eq_get d j hj] at hnone
    rw [if_pos ⟨h1, h2, hnone⟩]
  · exact hnone

theorem fillPair_id_of_no_none (time : List ℚ) (mg : ℚ) (d : List (Option ℚ))
    (s e : Nat) (h : ∀ j, s < j → j < e → vAt d j ≠ none) :
    fillPair time mg d s e = d := by
  unfold fillPair
  split
  · apply List.ext_get (by simp [List.length_mapIdx])
    intro n h1 h2
    rw [List.get_mapIdx _ _ n h2]
    rw [if_neg]
    rintro ⟨ha, hb, hv⟩
    exact h n ha hb (by rw [vAt_eq_get d n h2, hv])
  · rfl

theorem zip_tail_pair_props {l : List Nat} (hs : l.Pairwise (· < ·)) :
    ∀ p ∈ l.zip l.tail, p.1 < p.2 ∧ p.1 ∈ l ∧ p.2 ∈ l ∧
      ∀ x ∈ l, ¬ (p.1 < x ∧ x < p.2) := by
  induction l with
  | nil => intro p hp; simp at hp
  | cons a t ih =>
    match t, ih with
    | [], _ => intro p hp; simp at hp
    | b :: t2, ih =>
      intro p hp
      have hab : a < b := (List.pairwise_cons.mp hs).1 b (by simp)
      have hat : ∀ x ∈ b :: t2, a < x := (List.pairwise_cons.mp hs).1
      have hst : (b :: t2).Pairwise (· < ·) := (List.pairwise_cons.mp hs).2
      rw [show (a :: b :: t2).zip (a :: b :: t2).tail = (a, b) :: (b :: t2).zip (b :: t2).tail from rfl]
        at hp
      rcases List.mem_cons.mp hp with h | h
      · subst h
        refine ⟨hab, by simp, by simp, ?_⟩
        intro x hx
        rintro ⟨h1, h2⟩
        rcases List.mem_cons.mp hx with rfl | hx2
        · exact absurd h1 (lt_irrefl _)
        · rcases List.mem_cons.mp hx2 with rfl | hx3
          · exact absurd h2 (lt_irrefl _)
          · have := (List.pairwise_cons.mp hst).1 x hx3
            omega
      · obtain ⟨hlt, hm1, hm2, hnb⟩ := ih hst p h
        refine ⟨hlt, List.mem_cons_of_mem a hm1, List.mem_cons_of_mem a hm2, ?_⟩
        intro x hx
        rcases List.mem_cons.mp hx with rfl | hx2
        · rintro ⟨h1, h2⟩
          have := hat p.1 hm1
          omega
        · exact hnb x hx2

theorem zip_tail_nodup {l : List Nat} (hs : l.Pairwise (· < ·)) :
    (l.zip l.tail).Nodup := by
  induction l with
  | nil => simp
  | cons a t ih =>
    match t, ih with
    | [], _ => simp
    | b :: t2, ih =>
      have hst : (b :: t2).Pairwise (· < ·) := (List.pairwise_cons.mp hs).2
      rw [show (a :: b :: t2).zip (a :: b :: t2).tail =
        (a, b) :: (b :: t2).zip (b :: t2).tail from rfl]
      refine List.nodup_cons.mpr ⟨?_, ih hst⟩
      intro hmem
      have hmem2 := (zip_tail_pair_props hst (a, b) hmem).2.1
      have hlt : a < a := (List.pairwise_cons.mp hs).1 a hmem2
      exact absurd hlt (lt_irrefl a)

theorem exists_bracketing_pair {l : List Nat} (hs : l.Pairwise (· < ·)) (j : Nat)
    (hj : j ∉ l) (hex1 : ∃ a ∈ l, a < j) (hex2 : ∃ b ∈ l, j < b) :
    ∃ p ∈ l.zip l.tail, p.1 < j ∧ j < p.2 := by
  induction l with
  | nil => obtain ⟨a, ha, _⟩ := hex1; simp at ha
  | cons c t ih =>
    match t, ih with
    | [], _ =>
      obtain ⟨a, ha, haj⟩ := hex1
      obtain ⟨b, hb, hjb⟩ := hex2
      have ha2 : a = c := by simpa using ha
      have hb2 : b = c := by simpa using hb
      omega
    | d :: t2, ih =>
      obtain ⟨a, ha, haj⟩ := hex1
      obtain ⟨b, hb, hjb⟩ := hex2
      have hcd : c < d := (List.pairwise_cons.mp hs).1 d (by simp)
      have hst : (d :: t2).Pairwise (· < ·) := (List.pairwise_cons.mp hs).2
      by_cases hjd : j < d
      · have hac : a = c := by
          rcases List.mem_cons.mp ha with h | ha2
          · exact h
          · exfalso
            rcases List.mem_cons.mp ha2 with rfl | ha3
            · omega
            · have := (List.pairwise_cons.mp hst).1 a ha3
              omega
        refine ⟨(c, d), ?_, by omega, hjd⟩
        rw [show (c :: d :: t2).zip (c :: d :: t2).tail =
          (c, d) :: (d :: t2).zip (d :: t2).tail from rfl]
        exact List.mem_cons_self _ _
      · have hjd2 : d < j := by
          have hne : j ≠ d := fun he => hj (by rw [he]; simp)
          omega
        have hbt : b ∈ d :: t2 := by
          rcases List.mem_cons.mp hb with rfl | hb2
          · omega
          · exact hb2
        obtain ⟨p, hp, hp1, hp2⟩ := ih hst
          (fun hm => hj (List.mem_cons_of_mem c hm))
          ⟨d, List.mem_cons_self d t2, hjd2⟩ ⟨b, hbt, hjb⟩
        refine ⟨p, ?_, hp1, hp2⟩
        rw [show (c :: d :: t2).zip (c :: d :: t2).tail =
          (c, d) :: (d :: t2).zip (d :: t2).tail from rfl]
        exact List.mem_cons_of_mem _ hp

theorem bracketing_pair_unique {l : List Nat} (hs : l.Pairwise (· < ·))
    {p q : Nat × Nat} (hp : p ∈ l.zip l.tail) (hq : q ∈ l.zip l.tail)
    {j : Nat} (hpj : p.1 < j ∧ j < p.2) (hqj : q.1 < j ∧ j < q.2) : p = q := by
  obtain ⟨_, hp1, hp2, hpn⟩ := zip_tail_pair_props hs p hp
  obtain ⟨_, hq1, hq2, hqn⟩ := zip_tail_pair_props hs q hq
  have h1 := hpn q.1 hq1
  have h2 := hpn q.2 hq2
  have h3 := hqn p.1 hp1
  have h4 := hqn p.2 hp2
  have heq : p.1 = q.1 ∧ p.2 = q.2 := by
    push_neg at h1 h2 h3 h4
    omega
  obtain ⟨e1, e2⟩ := heq
  exact Prod.ext e1 e2

theorem nonNanIndices_sorted (data : List (Option ℚ)) :
    (nonNanIndices data).Pairwise (· < ·) :=
  List.Pairwise.filter _ (List.pairwise_lt_range data.length)

theorem mem_nonNanIndices (data : List (Option ℚ)) (j : Nat) :
    j ∈ nonNanIndices data ↔ j < data.length ∧ vAt data j ≠ none := by
  simp [nonNanIndices, List.mem_filter, List.mem_range, vAt,
    Option.isSome_iff_ne_none]

theorem foldl_fillPair_some (time : List ℚ) (mg : ℚ) (pairs : List (Nat × Nat)) :
    ∀ (d : List (Option ℚ)) (j : Nat) (x : ℚ), vAt d j = some x →
      vAt (pairs.foldl (fun d p => fillPair time mg d p.1 p.2) d) j = some x := by
  induction pairs with
  | nil => intro d j x h; exact h
  | cons p rest ih =>
    intro d j x h
    exact ih _ j x (vAt_fillPair_some time mg d p.1 p.2 j x h)

theorem foldl_fillPair_outside (time : List ℚ) (mg : ℚ) (pairs : List (Nat × Nat)) :
    ∀ (d : List (Option ℚ)) (j : Nat), (∀ p ∈ pairs, ¬ (p.1 < j ∧ j < p.2)) →
      vAt (pairs.foldl (fun d p => fillPair time mg d p.1 p.2) d) j = vAt d j := by
  induction pairs with
  | nil => intro d j _; rfl
  | cons p rest ih =>
    intro d j h
    rw [List.foldl_cons, ih _ j (fun q hq => h q (List.mem_cons_of_mem p hq)),
      vAt_fillPair_outside time mg d p.1 p.2 j (h p (List.mem_cons_self p rest))]

theorem foldl_fillPair_length (time : List ℚ) (mg : ℚ) (pairs : List (Nat × Nat)) :
    ∀ d : List (Option ℚ),
      (pairs.foldl (fun d p => fillPair time mg d p.1 p.2) d).length = d.length := by
  induction pairs with
  | nil => intro d; rfl
  | cons p rest ih =>
    intro d
    rw [List.foldl_cons, ih _, length_fillPair]

theorem foldl_some_source (time : List ℚ) (mg : ℚ) (pairs : List (Nat × Nat)) :
    ∀ (d : List (Option ℚ)) (j : Nat),
      vAt (pairs.foldl (fun d p => fillPair time mg d p.1 p.2) d) j ≠ none →
      vAt d j ≠ none ∨ ∃ p ∈ pairs, p.1 < j ∧ j < p.2 := by
  induction pairs with
  | nil => intro d j h; exact Or.inl h
  | cons p rest ih =>
    intro d j h
    rw [List.foldl_cons] at h
    rcases ih _ j h with h2 | ⟨q, hq, hqj⟩
    · by_cases hir : p.1 < j ∧ j < p.2
      · exact Or.inr ⟨p, List.mem_cons_self p rest, hir⟩
      · rw [vAt_fillPair_outside time mg d p.1 p.2 j hir] at h2
        exact Or.inl h2
    · exact Or.inr ⟨q, List.mem_cons_of_mem p hq, hqj⟩

theorem foldl_fillPair_value (time : List ℚ) (mg : ℚ)
    (l1 l2 : List (Nat × Nat)) (s e j : Nat) (d : List (Option ℚ))
    (hj : j < d.length)
    (h1 : ∀ p ∈ l1, ¬ (p.1 < j ∧ j < p.2))
    (h2 : ∀ p ∈ l2, ¬ (p.1 < j ∧ j < p.2))
    (hsj : s < j) (hje : j < e) (hnone : vAt d j = none)
    (vs ve : ℚ) (hvs : vAt d s = some vs) (hve : vAt d e = some ve) :
    vAt ((l1 ++ (s, e) :: l2).foldl (fun d p => fillPair time mg d p.1 p.2) d) j =
      if tAt time e - tAt time s ≤ mg then
        some (interpPoint (tAt time s) (tAt time e) vs ve (tAt time j))
      else none := by
  rw [List.foldl_append, List.foldl_cons]
  have hd1j : vAt (l1.foldl (fun d p => fillPair time mg d p.1 p.2) d) j = none := by
    rw [foldl_fillPair_outside time mg l1 d j h1]
    exact hnone
  have hd1s := foldl_fillPair_some time mg l1 d s vs hvs
  have hd1e := foldl_fillPair_some time mg l1 d e ve hve
  have hj1 : j < (l1.foldl (fun d p => fillPair time mg d p.1 p.2) d).length := by
    rw [foldl_fillPair_length]
    exact hj
  have hfill := vAt_fillPair_inside time mg _ s e j hj1 hsj hje hd1j
  rw [hd1s, hd1e] at hfill
  by_cases hc : tAt time e - tAt time s ≤ mg
  · rw [if_pos hc] at hfill ⊢
    exact foldl_fillPair_some time mg l2 _ j _ hfill
  · rw [if_neg hc] at hfill ⊢
    rw [foldl_fillPair_outside time mg l2 _ j h2]
    exact hfill

theorem foldl_id_of_each {α β : Type} (step : α → β → α) (d : α) (l : List β)
    (h : ∀ p ∈ l, step d p = d) : l.foldl step d = d := by
  induction l with
  | nil => rfl
  | cons p rest ih =>
    rw [List.foldl_cons, h p (List.mem_cons_self p rest)]
    exact ih (fun q hq => h q (List.mem_cons_of_mem p hq))

theorem interpolate_timeseries_def (time : List ℚ) (d : List (Option ℚ))
    (max_gap_size : Option ℚ) :
    interpolate_timeseries time d max_gap_size =
      ((nonNanIndices d).zip (nonNanIndices d).tail).foldl
        (fun acc p =>
          fillPair time (max_gap_size.getD (time.getLastD 0 - time.headD 0))
            acc p.1 p.2) d := rfl

/-- Claim C7 (confirmed): the interpolator is idempotent — applying
`interpolate_timeseries` to its own output, with the same time array and
the same `max_gap_size`, returns that output unchanged.  Every run of
NaNs bounded by two known values within the gap limit was filled by the
first application; every surviving NaN run is bounded by the same two
known values as before, still exceeding the gap limit (or unbounded at
the edges), so the second application changes nothing. -/
theorem interpolate_timeseries_idempotent (time : List ℚ)
    (data : List (Option ℚ)) (max_gap_size : Option ℚ) :
    interpolate_timeseries time (interpolate_timeseries time data max_gap_size)
        max_gap_size =
      interpolate_timeseries time data max_gap_size := by
  rw [interpolate_timeseries_def time data, interpolate_timeseries_def time]
  set mg := max_gap_size.getD (time.getLastD 0 - time.headD 0) with hmg
  set nni := nonNanIndices data with hnni
  set pairs := nni.zip nni.tail with hpairs
  set out := pairs.foldl (fun d q => fillPair time mg d q.1 q.2) data with hout
  apply foldl_id_of_each
  intro p hp
  have hsorted : nni.Pairwise (· < ·) := nonNanIndices_sorted data
  have hsorted2 : (nonNanIndices out).Pairwise (· < ·) := nonNanIndices_sorted out
  have hlen : out.length = data.length := by
    rw [hout]
    exact foldl_fillPair_length time mg pairs data
  obtain ⟨hpe, hp1, hp2, hpn⟩ := zip_tail_pair_props hsorted2 p hp
  by_cases hin : ∃ j, p.1 < j ∧ j < p.2 ∧ vAt out j = none
  · obtain ⟨j0, hj0a, hj0b, hj0n⟩ := hin
    have hp2len : p.2 < data.length := by
      have := ((mem_nonNanIndices out p.2).mp hp2).1
      omega
    have hj0len : j0 < data.length := by omega
    have hdataj0 : vAt data j0 = none := by
      by_contra hne
      obtain ⟨x, hx⟩ := Option.ne_none_iff_exists'.mp hne
      have hsome := foldl_fillPair_some time mg pairs data j0 x hx
      rw [← hout] at hsome
      rw [hsome] at hj0n
      exact Option.noConfusion hj0n
    have hj0nni : j0 ∉ nni := by
      intro hmem
      exact ((mem_nonNanIndices data j0).mp hmem).2 hdataj0
    have hleft : ∃ a ∈ nni, a < j0 := by
      have hs'ne : vAt out p.1 ≠ none := ((mem_nonNanIndices out p.1).mp hp1).2
      rw [hout] at hs'ne
      rcases foldl_some_source time mg pairs data p.1 hs'ne with hcase | ⟨q, hq, hq1, hq2⟩
      · exact ⟨p.1, (mem_nonNanIndices data p.1).mpr ⟨by omega, hcase⟩, hj0a⟩
      · exact ⟨q.1, (zip_tail_pair_props hsorted q hq).2.1, by omega⟩
    have hright : ∃ b ∈ nni, j0 < b := by
      have he'ne : vAt out p.2 ≠ none := ((mem_nonNanIndices out p.2).mp hp2).2
      rw [hout] at he'ne
      rcases foldl_some_source time mg pairs data p.2 he'ne with hcase | ⟨q, hq, hq1, hq2⟩
      · exact ⟨p.2, (mem_nonNanIndices data p.2).mpr ⟨hp2len, hcase⟩, hj0b⟩
      · exact ⟨q.2, (zip_tail_pair_props hsorted q hq).2.2.1, by omega⟩
    obtain ⟨q0, hq0, hq0a, hq0b⟩ :=
      exists_bracketing_pair hsorted j0 hj0nni hleft hright
    obtain ⟨hq0lt, hq0m1, hq0m2, hq0nb⟩ := zip_tail_pair_props hsorted q0 hq0
    obtain ⟨l1, l2, hsplit⟩ := List.append_of_mem hq0
    have hnd : (nni.zip nni.tail).Nodup := zip_tail_nodup hsorted
    have hq0notl : q0 ∉ l1 ++ l2 := by
      rw [hsplit] at hnd
      exact (List.nodup_cons.mp (List.nodup_middle.mp hnd)).1
    have huniq : ∀ j, q0.1 < j → j < q0.2 →
        (∀ r ∈ l1, ¬ (r.1 < j ∧ j < r.2)) ∧
        (∀ r ∈ l2, ¬ (r.1 < j ∧ j < r.2)) := by
      intro j hja hjb
      constructor
      · intro r hr hrj
        have hrp : r ∈ nni.zip nni.tail := by
          rw [hsplit]
          exact List.mem_append.mpr (Or.inl hr)
        have : r = q0 := bracketing_pair_unique hsorted hrp hq0 hrj ⟨hja, hjb⟩
        rw [this] at hr
        exact hq0notl (List.mem_append.mpr (Or.inl hr))
      · intro r hr hrj
        have hrp : r ∈ nni.zip nni.tail := by
          rw [hsplit]
          exact List.mem_append.mpr (Or.inr (List.mem_cons_of_mem _ hr))
        have : r = q0 := bracketing_pair_unique hsorted hrp hq0 hrj ⟨hja, hjb⟩
        rw [this] at hr
        exact hq0notl (List.mem_append.mpr (Or.inr hr))
    obtain ⟨vs, hvs⟩ : ∃ v, vAt data q0.1 = some v :=
      Option.ne_none_iff_exists'.mp ((mem_nonNanIndices data q0.1).mp hq0m1).2
    obtain ⟨ve, hve⟩ : ∃ v, vAt data q0.2 = some v :=
      Option.ne_none_iff_exists'.mp ((mem_nonNanIndices data q0.2).mp hq0m2).2
    have hvalue : ∀ j, q0.1 < j → j < q0.2 → vAt data j = none → j < data.length →
        vAt out j =
          if tAt time q0.2 - tAt time q0.1 ≤ mg then
            some (interpPoint (tAt time q0.1) (tAt time q0.2) vs ve (tAt time j))
          else none := by
      intro j hja hjb hjn hjl
      rw [hout, hpairs, hsplit]
      exact foldl_fillPair_value time mg l1 l2 q0.1 q0.2 j data hjl
        (huniq j hja hjb).1 (huniq j hja hjb).2 hja hjb hjn vs ve hvs hve
    have hdist : ¬ (tAt time q0.2 - tAt time q0.1 ≤ mg) := by
      intro hc
      have hv := hvalue j0 hq0a hq0b hdataj0 hj0len
      rw [if_pos hc] at hv
      rw [hv] at hj0n
      exact Option.noConfusion hj0n
    have hinterior : ∀ k, q0.1 < k → k < q0.2 → vAt out k = none := by
      intro k hka hkb
      have hkl : k < data.length := by
        have := ((mem_nonNanIndices data q0.2).mp hq0m2).1
        omega
      have hkdata : vAt data k = none := by
        by_contra hne
        exact (hq0nb k ((mem_nonNanIndices data k).mpr ⟨hkl, hne⟩)) ⟨hka, hkb⟩
      have hv := hvalue k hka hkb hkdata hkl
      rw [if_neg hdist] at hv
      exact hv
    have hq01out : q0.1 ∈ nonNanIndices out := by
      have h1l : q0.1 < data.length := ((mem_nonNanIndices data q0.1).mp hq0m1).1
      refine (mem_nonNanIndices out q0.1).mpr ⟨by omega, ?_⟩
      rw [hout, foldl_fillPair_some time mg pairs data q0.1 vs hvs]
      exact Option.noConfusion
    have hq02out : q0.2 ∈ nonNanIndices out := by
      have h2l : q0.2 < data.length := ((mem_nonNanIndices data q0.2).mp hq0m2).1
      refine (mem_nonNanIndices out q0.2).mpr ⟨by omega, ?_⟩
      rw [hout, foldl_fillPair_some time mg pairs data q0.2 ve hve]
      exact Option.noConfusion
    have he1 : p.1 = q0.1 := by
      rcases lt_trichotomy p.1 q0.1 with h | h | h
      · exact absurd ⟨h, by omega⟩ (hpn q0.1 hq01out)
      · exact h
      · exfalso
        have hno := hinterior p.1 h (by omega)
        exact ((mem_nonNanIndices out p.1).mp hp1).2 hno
    have he2 : p.2 = q0.2 := by
      rcases lt_trichotomy p.2 q0.2 with h | h | h
      · exfalso
        have hno := hinterior p.2 (by omega) h
        exact ((mem_nonNanIndices out p.2).mp hp2).2 hno
      · exact h
      · exact absurd ⟨by omega, h⟩ (hpn q0.2 hq02out)
    unfold fillPair
    rw [if_neg (by rw [he1, he2]; exact hdist)]
  · push_neg at hin
    exact fillPair_id_of_no_none time mg out p.1 p.2 hin
